import Mathlib

/-!
Formal model of the two-phase table extraction pipeline and of the
rate-limited API key pool of the Doc-Analyzer repository, embedded from
`backend/services/background_table_extractor.py` and
`backend/services/pdf_service.py`, together with proofs of the
specification claims about them.
-/

namespace DocAnalyzer

/-! Part 1: the rate-limited client pool (`pdf_service.ApiKeyManager`).

The mutable fields `_thread_assignments` (a dict from thread id to key),
`_key_owners` (a dict from key to owning thread or None),
`last_request_time` (a dict from key to the time of the last request) and
`_next_key_index` are modelled as association lists keyed the way the
dicts are, and every dict operation used by the source is modelled by the
corresponding association-list operation. -/

/-- Pool state of `ApiKeyManager`: `apiKeys` is the fixed key list, the
other four fields mirror the four mutable dictionaries/counters. -/
structure PoolState where
  apiKeys : List String
  threadAssignments : List (Nat × String)
  keyOwners : List (String × Option Nat)
  lastRequestTime : List (String × Int)
  nextKeyIndex : Nat
deriving DecidableEq, Repr

/-- Dict read `d.get(t)` on `_thread_assignments`. -/
def lookupAssign (a : List (Nat × String)) (t : Nat) : Option String :=
  (a.find? (fun q => q.1 == t)).map (fun q => q.2)

/-- Dict delete `del d[t]` on `_thread_assignments`. -/
def delAssign (a : List (Nat × String)) (t : Nat) : List (Nat × String) :=
  a.filter (fun q => !(q.1 == t))

/-- Dict write `d[t] = k` on `_thread_assignments`. -/
def setAssign (a : List (Nat × String)) (t : Nat) (k : String) : List (Nat × String) :=
  if (a.find? (fun q => q.1 == t)).isSome then
    a.map (fun q => if q.1 == t then (t, k) else q)
  else a ++ [(t, k)]

/-- Dict read `self._key_owners.get(k)` (missing keys read as None). -/
def lookupOwner (o : List (String × Option Nat)) (k : String) : Option Nat :=
  match o.find? (fun q => q.1 == k) with
  | some q => q.2
  | none => none

/-- Dict write `self._key_owners[k] = v` (the key set is fixed at
construction, so an update-in-place suffices). -/
def setOwner (o : List (String × Option Nat)) (k : String) (v : Option Nat) :
    List (String × Option Nat) :=
  o.map (fun q => if q.1 == k then (q.1, v) else q)

/-- Dict read `self.last_request_time.get(k, 0)`; the source initialises
every key at `0.0`, so a missing key reads as `0`.  Timestamps are
modelled as integer numbers of milliseconds. -/
def lookupTime (l : List (String × Int)) (k : String) : Int :=
  ((l.find? (fun q => q.1 == k)).map (fun q => q.2)).getD 0

/-- The fixed 200 ms minimum inter-request interval
(`self.request_interval = 0.2` seconds, in millisecond units). -/
def requestInterval : Int := 200

/-- Embeds `ApiKeyManager._find_best_available_key` (pdf_service.py lines
123-140): strategy 1 returns the first completely unassigned key;
strategy 2 takes the key idle the longest (Python `min` keeps the first
minimum); strategy 3 falls back to round robin when even that key was
used within the minimum interval, advancing `_next_key_index`.  Returns
the selected key and the new `_next_key_index`. -/
def findBestAvailableKey (s : PoolState) (now : Int) : String × Nat :=
  match s.apiKeys.find? (fun k => (lookupOwner s.keyOwners k).isNone) with
  | some k => (k, s.nextKeyIndex)
  | none =>
    match s.apiKeys with
    | [] => ("", s.nextKeyIndex)
    | k0 :: ks =>
      let best := ks.foldl
        (fun b k => if lookupTime s.lastRequestTime k < lookupTime s.lastRequestTime b then k else b) k0
      if now - lookupTime s.lastRequestTime best < requestInterval then
        ((k0 :: ks).getD (s.nextKeyIndex % (k0 :: ks).length) "",
         (s.nextKeyIndex + 1) % (k0 :: ks).length)
      else (best, s.nextKeyIndex)

/-- Embeds the tail of `ApiKeyManager.get_client` (pdf_service.py lines
106-121): select the best key, evict the previous owner's assignment if
any, then record the new assignment and ownership. -/
def acquireFresh (s : PoolState) (tid : Nat) (now : Int) : String × PoolState :=
  let picked := findBestAvailableKey s now
  let assignments1 :=
    match lookupOwner s.keyOwners picked.1 with
    | some oldOwner => delAssign s.threadAssignments oldOwner
    | none => s.threadAssignments
  (picked.1,
   { s with threadAssignments := setAssign assignments1 tid picked.1,
            keyOwners := setOwner s.keyOwners picked.1 (some tid),
            nextKeyIndex := picked.2 })

/-- Embeds `ApiKeyManager.get_client` (pdf_service.py lines 94-121).
Returns the key handed to the worker and the new pool state. -/
def getClient (s : PoolState) (tid : Nat) (now : Int) : String × PoolState :=
  match lookupAssign s.threadAssignments tid with
  | some assignedKey =>
    if lookupOwner s.keyOwners assignedKey = some tid then (assignedKey, s)
    else acquireFresh { s with threadAssignments := delAssign s.threadAssignments tid } tid now
  | none => acquireFresh s tid now

/-- Embeds `ApiKeyManager.release_client` (pdf_service.py lines 142-153):
ownership is verified before anything is cleared; otherwise the state is
left untouched. -/
def releaseClient (s : PoolState) (key : String) (tid : Nat) : PoolState :=
  if lookupAssign s.threadAssignments tid = some key ∧
     lookupOwner s.keyOwners key = some tid then
    { s with threadAssignments := delAssign s.threadAssignments tid,
             keyOwners := setOwner s.keyOwners key none }
  else s

/-! Part 2: data model of the extractor
(`background_table_extractor.py`).

Python strings are modelled as their character lists (`PyStr`), and
every Python string operation the source uses is modelled by a
structural function on character lists, so that all definitions
evaluate inside the kernel.  String literals enter through `.data`. -/

/-- A Python string value. -/
abbrev PyStr := List Char

/-- The whitespace characters stripped by Python `str.strip()`. -/
def pyIsSpace (c : Char) : Bool :=
  c == ' ' || c == '\t' || c == '\n' || c == '\r' || c == '\x0b' || c == '\x0c'

/-- Python `s.strip()`. -/
def pyStrip (s : PyStr) : PyStr :=
  ((s.dropWhile pyIsSpace).reverse.dropWhile pyIsSpace).reverse

/-- Python `s.split(sep)` for a one-character separator (every separator
the source splits on — `'\n'`, `':'`, `'|'` — is one character). -/
def splitOnChar (sep : Char) : PyStr → List PyStr
  | [] => [[]]
  | c :: cs =>
    if c == sep then [] :: splitOnChar sep cs
    else
      match splitOnChar sep cs with
      | [] => [[c]]
      | g :: gs => (c :: g) :: gs

/-- Python `sep.join(groups)` for a one-character separator. -/
def joinChar (sep : Char) : List PyStr → PyStr
  | [] => []
  | [g] => g
  | g :: g' :: gs => g ++ sep :: joinChar sep (g' :: gs)

/-- Python `s.upper()`. -/
def pyUpper (s : PyStr) : PyStr := s.map Char.toUpper

/-- Python `s.lower()`. -/
def pyLower (s : PyStr) : PyStr := s.map Char.toLower

/-- Python `s.replace(a, b)` for one-character `a`, `b`. -/
def pyReplaceChar (a b : Char) (s : PyStr) : PyStr :=
  s.map (fun c => if c == a then b else c)

/-- Python `s.rstrip(a)` for a one-character strip set. -/
def pyRstripChar (a : Char) (s : PyStr) : PyStr :=
  (s.reverse.dropWhile (fun c => c == a)).reverse

/-- Python `c in s` for a single character. -/
def containsChar (s : PyStr) (c : Char) : Bool :=
  s.contains c

/-- Contiguous-sublist check on character lists. -/
def listIsInfix (needle : PyStr) : PyStr → Bool
  | [] => needle.isEmpty
  | c :: cs => needle.isPrefixOf (c :: cs) || listIsInfix needle cs

/-- Python `needle in haystack` (substring containment). -/
def containsSub (needle haystack : PyStr) : Bool :=
  listIsInfix needle haystack

/-- The `ExtractedTable` dataclass (background_table_extractor.py lines
23-31); `merge_start_page` defaults to `None`. -/
structure ExtractedTable where
  table_id : Nat
  title : PyStr
  markdown_content : PyStr
  column_headers : List PyStr
  row_count : Nat
  column_count : Nat
  merge_start_page : Option Nat := none
deriving DecidableEq, Repr

/-- The `PageResponse` dataclass (lines 33-37). -/
structure PageResponse where
  page_number : Nat
  raw_response : PyStr
  tables : List ExtractedTable
deriving DecidableEq, Repr

/-! Part 3: the page parser (`_parse_page_response` and
`_create_table_from_content`, lines 630-705). -/

/-- Title normalisation of `_create_table_from_content` (lines 673-677):
take the text after the first colon (`split(':', 1)[1]`), strip it,
right-strip closing braces, lower-case it and replace spaces and
hyphens by underscores; without a colon the title is
`"unknown_table"`. -/
def normalizeTitle (titleLine : PyStr) : PyStr :=
  if containsChar titleLine ':' then
    let afterColon := joinChar ':' ((splitOnChar ':' titleLine).drop 1)
    let part := pyRstripChar '\x7d' (pyStrip afterColon)
    pyReplaceChar '-' '_' (pyReplaceChar ' ' '_' (pyLower part))
  else "unknown_table".data

/-- Header cells of a markdown row: Python `line.split('|')[1:-1]` with
each cell stripped. -/
def headerCells (line : PyStr) : List PyStr :=
  (((splitOnChar '|' line).drop 1).dropLast).map pyStrip

/-- The header/row-count scan of `_create_table_from_content` (lines
684-689): the first pipe line without `---` provides the headers, every
later such line counts as one data row. -/
def scanTableLines : List PyStr → List PyStr → Nat → List PyStr × Nat
  | [], headers, rows => (headers, rows)
  | line :: rest, headers, rows =>
    if containsChar line '|' && !containsSub "---".data line then
      if headers.isEmpty then scanTableLines rest (headerCells line) rows
      else scanTableLines rest headers (rows + 1)
    else scanTableLines rest headers rows

/-- Embeds `_create_table_from_content` (lines 670-705): a block with no
parseable headers yields `none`; otherwise an `ExtractedTable` with a
fresh (`none`) merge-origin page. -/
def createTableFromContent (titleLine content : PyStr) (tableId : Nat) (_pageNum : Nat) :
    Option ExtractedTable :=
  let scanned := scanTableLines (splitOnChar '\n' content) [] 0
  if scanned.1.isEmpty then none
  else some
    { table_id := tableId, title := normalizeTitle titleLine, markdown_content := content,
      column_headers := scanned.1, row_count := scanned.2, column_count := scanned.1.length,
      merge_start_page := none }

/-- Parser state of the line loop in `_parse_page_response`: current
title line, accumulated block content, next ordinal id, tables found. -/
structure ParseState where
  title : PyStr
  content : PyStr
  nextId : Nat
  acc : List ExtractedTable

/-- Flushing the current block (lines 645-650 and 658-662): a blank
block is skipped; a parseable block is appended and the ordinal
advances. -/
def flushTable (pageNum : Nat) (st : ParseState) : ParseState :=
  if (pyStrip st.content).isEmpty then st
  else
    match createTableFromContent st.title (pyStrip st.content) st.nextId pageNum with
    | some t => { st with acc := st.acc ++ [t], nextId := st.nextId + 1 }
    | none => st

/-- The line loop of `_parse_page_response` (lines 643-656): a delimiter
line (stripped text starting with the table marker and containing a
closing brace) flushes the previous block and starts a new one; any
other line is appended to the current block (plus a newline). -/
def parseLines (pageNum : Nat) : List PyStr → ParseState → ParseState
  | [], st => st
  | line :: rest, st =>
    if "\x7bTable".data.isPrefixOf (pyStrip line) && containsChar line '\x7d' then
      let st' := flushTable pageNum st
      parseLines pageNum rest { st' with title := pyStrip line, content := [] }
    else
      parseLines pageNum rest { st with content := st.content ++ line ++ ['\n'] }

/-- Embeds `_parse_page_response` (lines 630-668): the literal `EMPTY`
reply gives a page with no tables; otherwise the line loop runs and the
final block is flushed. -/
def parsePageResponse (responseText : PyStr) (pageNum : Nat) : PageResponse :=
  if pyUpper (pyStrip responseText) = "EMPTY".data then ⟨pageNum, responseText, []⟩
  else
    let final := flushTable pageNum
      (parseLines pageNum (splitOnChar '\n' responseText) ⟨[], [], 1, []⟩)
    ⟨pageNum, responseText, final.acc⟩

/-! Part 4: single-page extraction and Phase 1 (`_extract_from_single_page`
lines 563-628, `_phase1_parallel_extraction` lines 539-561). -/

/-- Outcome of one model call attempt for a page: the call raises (a
transport error or timeout), returns a response with no usable text, or
returns text. -/
inductive AttemptOutcome where
  | raises
  | noText
  | text (s : PyStr)
deriving DecidableEq, Repr

/-- The guard `response and hasattr(response, 'text') and response.text`
(line 615): only a non-empty text ends the attempt loop. -/
def attemptText : AttemptOutcome → Option PyStr
  | .text s => if s.isEmpty then none else some s
  | _ => none

/-- Embeds the two-attempt loop of `_extract_from_single_page` (lines
600-628) and also counts the model calls issued: the first attempt that
yields usable text is parsed; if neither does (both raise, per the
`except` branch and the post-loop fallthrough, or return empty text)
the page degrades to a `PageResponse` with zero tables instead of
raising. -/
def extractWithCalls (a1 a2 : AttemptOutcome) (pageNum : Nat) : PageResponse × Nat :=
  match attemptText a1 with
  | some s => (parsePageResponse s pageNum, 1)
  | none =>
    match attemptText a2 with
    | some s => (parsePageResponse s pageNum, 2)
    | none => (⟨pageNum, "EMPTY".data, []⟩, 2)

/-- The `PageResponse` actually returned by `_extract_from_single_page`. -/
def extractFromSinglePage (a1 a2 : AttemptOutcome) (pageNum : Nat) : PageResponse :=
  (extractWithCalls a1 a2 pageNum).1

/-- The pages for which Phase 1 creates a task (lines 543-547): page
numbers `1 .. page_count` whose rendered image exists. -/
def pagesAttempted (pageCount : Nat) (imageExists : Nat → Bool) : List Nat :=
  ((List.range pageCount).map (fun i => i + 1)).filter imageExists

/-- Embeds `_phase1_parallel_extraction` (lines 539-561): one extraction
task per attempted page; `asyncio.gather` returns results in
task-submission order (ascending page number) regardless of completion
order, and since `_extract_from_single_page` never raises and never
returns `None`, every result is kept.  `env` gives each page its two
attempt outcomes. -/
def phase1ParallelExtraction (pageCount : Nat) (imageExists : Nat → Bool)
    (env : Nat → AttemptOutcome × AttemptOutcome) : List PageResponse :=
  (pagesAttempted pageCount imageExists).map
    (fun p => extractFromSinglePage (env p).1 (env p).2 p)

/-! Part 5: the merge oracle decision and the structural merge
(`_bulletproof_merge_decision` lines 776-843, `_perfect_merge_tables`
lines 845-897). -/

/-- Outcome of the single oracle call of `_bulletproof_merge_decision`:
the call raises (error or timeout), the response has no text attribute,
or it has a text reply. -/
inductive OracleOutcome where
  | err
  | noText
  | reply (s : PyStr)
deriving DecidableEq, Repr

/-- Result of the merge decision, mirroring the returned dict:
`merge m` for `{"merged": True, "table": m}` and `separate` for
`{"merged": False}`. -/
inductive MergeVerdict where
  | merge (t : ExtractedTable)
  | separate
deriving DecidableEq, Repr

/-- The data-row extraction loop of `_perfect_merge_tables` (lines
856-871): blank or pipe-less lines are skipped, the first pipe line is
consumed as the header, the first following pipe line containing `---`
or `--` is consumed as the separator, every other pipe line is kept
(stripped). -/
def extractDataRows : List PyStr → Bool → Bool → List PyStr
  | [], _, _ => []
  | l :: ls, foundHeader, foundSep =>
    let line := pyStrip l
    if line.isEmpty || !containsChar line '|' then extractDataRows ls foundHeader foundSep
    else if !foundHeader then extractDataRows ls true foundSep
    else if !foundSep && (containsSub "---".data line || containsSub "--".data line) then
      extractDataRows ls foundHeader true
    else line :: extractDataRows ls foundHeader foundSep

/-- The `try` body of `_perfect_merge_tables` (lines 847-892): table 1's
(stripped) content lines are kept in full, table 2's data rows are
appended, row counts are summed, table 1's title, headers and column
count are kept, and the merge-origin page is table 1's if set, else the
current page. -/
def perfectMergeCore (t1 t2 : ExtractedTable) (currentPage : Nat) : ExtractedTable :=
  let lines1 := splitOnChar '\n' (pyStrip t1.markdown_content)
  let lines2 := splitOnChar '\n' (pyStrip t2.markdown_content)
  let dataRows := extractDataRows lines2 false false
  { table_id := t1.table_id,
    title := t1.title,
    markdown_content := joinChar '\n' (lines1 ++ dataRows),
    column_headers := t1.column_headers,
    row_count := t1.row_count + t2.row_count,
    column_count := t1.column_count,
    merge_start_page := some (t1.merge_start_page.getD currentPage) }

/-- `_perfect_merge_tables` as seen by its caller: if its body raises
(`mergeRaises`), the `except` branch (lines 894-897) returns table 1
unchanged; otherwise the structural merge result. -/
def perfectMergeTables (mergeRaises : Bool) (t1 t2 : ExtractedTable) (currentPage : Nat) :
    ExtractedTable :=
  if mergeRaises then t1 else perfectMergeCore t1 t2 currentPage

/-- The reply check of line 826: `"MERGE" in response.text.strip().upper()`
— substring containment, not an exact-token match. -/
def mergeTokenHeard (s : PyStr) : Bool :=
  containsSub "MERGE".data (pyUpper (pyStrip s))

/-- Embeds `_bulletproof_merge_decision` (lines 776-843), with
`mergeRaises` saying whether the structural merge body would raise: any
raised error or timeout and any missing reply text resolve to SEPARATE;
a text reply merges exactly when its stripped upper-casing contains the
substring `MERGE`. -/
def bulletproofMergeDecisionF (outcome : OracleOutcome) (mergeRaises : Bool)
    (t1 t2 : ExtractedTable) (currentPage : Nat) : MergeVerdict :=
  match outcome with
  | .err => .separate
  | .noText => .separate
  | .reply s =>
    if mergeTokenHeard s then .merge (perfectMergeTables mergeRaises t1 t2 currentPage)
    else .separate

/-- `_bulletproof_merge_decision` with the structural merge running its
normal (non-raising) body, which is the behaviour of the pure string
code of `_perfect_merge_tables`. -/
def bulletproofMergeDecision (outcome : OracleOutcome) (t1 t2 : ExtractedTable)
    (currentPage : Nat) : MergeVerdict :=
  bulletproofMergeDecisionF outcome false t1 t2 currentPage

/-! Part 6: Phase 2 and persistence (`_phase2_bulletproof_sequential_merging`
lines 707-774, `_insert_table_to_database` lines 963-985). -/

/-- One persisted `Table` row, as built by `_insert_table_to_database`:
the start page is the table's merge-origin page if set, else the page
it was flushed from; the end page is the page it was flushed from. -/
structure InsertedRow where
  startPage : Nat
  endPage : Nat
  tableNumber : Nat
  tableTitle : PyStr
  markdownContent : PyStr
  columnCount : Nat
  rowCount : Nat
deriving DecidableEq, Repr

/-- Embeds `_insert_table_to_database` (lines 963-985). -/
def insertRow (t : ExtractedTable) (startPage endPage : Nat) : InsertedRow :=
  { startPage := t.merge_start_page.getD startPage,
    endPage := endPage,
    tableNumber := t.table_id,
    tableTitle := t.title,
    markdownContent := t.markdown_content,
    columnCount := t.column_count,
    rowCount := t.row_count }

/-- The rows written while flushing the given tables from one page, in
flushing order (`_insert_table_to_database(pdf.id, table, page, page)`). -/
def rowsOf (pageNum : Nat) (ts : List ExtractedTable) : List InsertedRow :=
  ts.map (fun t => insertRow t pageNum pageNum)

/-- Observable outcome of a Phase 2 run: the rows inserted in write
order, the oracle calls made (table A, table B, page of A) in call
order, the successive persisted values of `tables_processed` (one per
page that held at least one table, mirroring the progress save at lines
766-768 which the `continue` for table-less pages skips), and the
returned `total_inserted` counter. -/
structure Phase2Out where
  inserted : List InsertedRow
  calls : List (ExtractedTable × ExtractedTable × Nat)
  persists : List Nat
  count : Nat
deriving DecidableEq, Repr

/-- Embeds `_phase2_bulletproof_sequential_merging` (lines 707-774),
with explicit fuel (always instantiated with the page count, so the
fuel never runs out) to keep the recursion structural while the merge
branch replaces the next page's first table in place
(`next_page.tables[0] = merged_table`, line 753).  `acc` is the running
`total_inserted` counter.  For each page holding tables: every table
but the last is inserted; the oracle is consulted on (last table, first
table of the next page) only when the next list entry's page number is
exactly the current page plus one and that entry has tables; on MERGE
the merged table replaces the next page's first slot, otherwise the
last table (and likewise on a gap, missing or table-less next page) is
inserted. -/
def processPageFuel (dec : ExtractedTable → ExtractedTable → Nat → MergeVerdict) :
    Nat → Nat → List PageResponse → Phase2Out
  | 0, _, _ => ⟨[], [], [], 0⟩
  | _ + 1, _, [] => ⟨[], [], [], 0⟩
  | fuel + 1, acc, p :: rest =>
    match p.tables with
    | [] => processPageFuel dec fuel acc rest
    | t0 :: ts =>
      let lastT := (t0 :: ts).getLast (List.cons_ne_nil t0 ts)
      match rest with
      | [] =>
        let batch := rowsOf p.page_number (t0 :: ts)
        ⟨batch, [], [acc + batch.length], batch.length⟩
      | q :: rest' =>
        if q.page_number = p.page_number + 1 then
          match q.tables with
          | [] =>
            let batch := rowsOf p.page_number (t0 :: ts)
            let out := processPageFuel dec fuel (acc + batch.length) (q :: rest')
            ⟨batch ++ out.inserted, out.calls,
             (acc + batch.length) :: out.persists, batch.length + out.count⟩
          | u :: us =>
            match dec lastT u p.page_number with
            | .merge m =>
              let batch := rowsOf p.page_number ((t0 :: ts).dropLast)
              let out := processPageFuel dec fuel (acc + batch.length)
                ({ q with tables := m :: us } :: rest')
              ⟨batch ++ out.inserted, (lastT, u, p.page_number) :: out.calls,
               (acc + batch.length) :: out.persists, batch.length + out.count⟩
            | .separate =>
              let batch := rowsOf p.page_number (t0 :: ts)
              let out := processPageFuel dec fuel (acc + batch.length) (q :: rest')
              ⟨batch ++ out.inserted, (lastT, u, p.page_number) :: out.calls,
               (acc + batch.length) :: out.persists, batch.length + out.count⟩
        else
          let batch := rowsOf p.page_number (t0 :: ts)
          let out := processPageFuel dec fuel (acc + batch.length) (q :: rest')
          ⟨batch ++ out.inserted, out.calls,
           (acc + batch.length) :: out.persists, batch.length + out.count⟩

/-- The whole Phase 2 run on an ordered page-result list. -/
def processPages (dec : ExtractedTable → ExtractedTable → Nat → MergeVerdict)
    (l : List PageResponse) : Phase2Out :=
  processPageFuel dec l.length 0 l

/-- A merge decision driven by an arbitrary oracle behaviour, with the
structural merge running normally. -/
def decOf (oracleF : ExtractedTable → ExtractedTable → Nat → OracleOutcome)
    (t1 t2 : ExtractedTable) (p : Nat) : MergeVerdict :=
  bulletproofMergeDecision (oracleF t1 t2 p) t1 t2 p

/-! Part 7: derived notions used by the claims. -/

/-- The `(start_page, table_number)` sort key of a persisted row. -/
def rowKey (r : InsertedRow) : Nat × Nat :=
  (r.startPage, r.tableNumber)

/-- Lexicographic order on `(start_page, table_number)` keys. -/
def keyLe (a b : Nat × Nat) : Prop :=
  a.1 < b.1 ∨ (a.1 = b.1 ∧ a.2 ≤ b.2)

/-- The key under which a table would be inserted when flushed from
page `n`. -/
def tkey (n : Nat) (t : ExtractedTable) : Nat × Nat :=
  (t.merge_start_page.getD n, t.table_id)

/-- A page as produced by Phase 1: every table has a fresh (`none`)
merge-origin page, and the per-page ordinal ids are strictly
increasing. -/
def pageFreshB (P : PageResponse) : Prop :=
  (∀ t ∈ P.tables, t.merge_start_page = none) ∧
  List.Chain' (· < ·) (P.tables.map ExtractedTable.table_id)

/-- Adjacency of one oracle call against the page list handed to Phase
2: the call's page is at some index `i`, the entry at `i + 1` carries
the very next page number and is non-empty. -/
def AdjacencyAt (l : List PageResponse) (c : ExtractedTable × ExtractedTable × Nat) : Prop :=
  ∃ i Q, (l.map PageResponse.page_number).get? i = some c.2.2 ∧
    l.get? (i + 1) = some Q ∧ Q.page_number = c.2.2 + 1 ∧ Q.tables ≠ []

/-- Invariant carried through the parser's line loop: every table found
so far has a fresh merge-origin page and an ordinal id below the next
one, and the ids are strictly increasing. -/
def parseAccOk (st : ParseState) : Prop :=
  (∀ t ∈ st.acc, t.merge_start_page = none ∧ t.table_id < st.nextId) ∧
  List.Chain' (· < ·) (st.acc.map ExtractedTable.table_id)

/-- Invariant on the head of the remaining page list during the Phase 2
walk: the keys of its tables continue the chain from the last inserted
key `prev`, and every table's prospective start page is bounded by the
page it sits on. -/
def headInv (prev : Nat × Nat) : List PageResponse → Prop
  | [] => True
  | p :: _ =>
    prev.1 < p.page_number ∧
    List.Chain' keyLe (prev :: p.tables.map (tkey p.page_number)) ∧
    ∀ t ∈ p.tables, t.merge_start_page.getD p.page_number ≤ p.page_number

/-- A merge decision function whose merged tables come from the
structural merge of the source (`_perfect_merge_tables` with its
non-raising body). -/
def decGood (dec : ExtractedTable → ExtractedTable → Nat → MergeVerdict) : Prop :=
  ∀ t1 t2 p m, dec t1 t2 p = .merge m → m = perfectMergeCore t1 t2 p

/-- Pool state in which every key (there is exactly one) is owned by
worker 1, and the key's last request is long in the past. -/
def poolAllOwned : PoolState :=
  ⟨["k1"], [(1, "k1")], [("k1", some 1)], [("k1", 0)], 0⟩

/-- A one-column sample table on which concrete instances are
evaluated. -/
def sampleA : ExtractedTable :=
  ⟨1, "a".data, "| x |\n|---|\n| 1 |".data, ["x".data], 1, 1, none⟩

/-- A second sample table with one data row. -/
def sampleB : ExtractedTable :=
  ⟨1, "b".data, "| h |\n|---|\n| 9 |".data, ["h".data], 1, 1, none⟩

/-! Part 8: helper lemmas for the pool. -/

lemma getD_mem_of_lt {α : Type} :
    ∀ (l : List α) (n : Nat) (d : α), n < l.length → l.getD n d ∈ l := by
  intro l
  induction l with
  | nil => intro n d h; simp at h
  | cons x xs ih =>
    intro n d h
    cases n with
    | zero => simp [List.getD]
    | succ m =>
      have hm : m < xs.length := by simpa using h
      simpa [List.getD] using List.mem_cons_of_mem x (ih m d hm)

lemma lookupAssign_delAssign (a : List (Nat × String)) (t : Nat) :
    lookupAssign (delAssign a t) t = none := by
  unfold lookupAssign delAssign
  rw [List.find?_eq_none.2]
  · rfl
  · intro x hx
    have hxx := (List.mem_filter.1 hx).2
    simp only [Bool.not_eq_true'] at hxx
    simp [hxx]

lemma foldl_pick_mem (f : String → Int) :
    ∀ (ks : List String) (b : String),
      ks.foldl (fun b k => if f k < f b then k else b) b ∈ b :: ks := by
  intro ks
  induction ks with
  | nil => intro b; simp
  | cons k ks ih =>
    intro b
    simp only [List.foldl_cons]
    have h := ih (if f k < f b then k else b)
    rcases List.mem_cons.1 h with h1 | h1
    · rw [h1]
      split
      · exact List.mem_cons_of_mem _ (List.mem_cons_self _ _)
      · exact List.mem_cons_self _ _
    · exact List.mem_cons_of_mem _ (List.mem_cons_of_mem _ h1)

lemma findBestAvailableKey_mem (s : PoolState) (now : Int) (h : s.apiKeys ≠ []) :
    (findBestAvailableKey s now).1 ∈ s.apiKeys := by
  unfold findBestAvailableKey
  cases hf : s.apiKeys.find? (fun k => (lookupOwner s.keyOwners k).isNone) with
  | some k => simpa using List.mem_of_find?_eq_some hf
  | none =>
    cases hk : s.apiKeys with
    | nil => exact absurd hk h
    | cons k0 ks =>
      simp only
      split
      · exact getD_mem_of_lt _ _ _ (Nat.mod_lt _ (by simp))
      · exact foldl_pick_mem (fun k => lookupTime s.lastRequestTime k) ks k0

lemma findBestAvailableKey_unowned (s : PoolState) (now : Int)
    (h : ∃ u ∈ s.apiKeys, lookupOwner s.keyOwners u = none) :
    lookupOwner s.keyOwners (findBestAvailableKey s now).1 = none := by
  have hs : (s.apiKeys.find? (fun k => (lookupOwner s.keyOwners k).isNone)).isSome := by
    rw [List.find?_isSome]
    obtain ⟨u, hu, hn⟩ := h
    exact ⟨u, hu, by simp [hn]⟩
  obtain ⟨k, hk⟩ := Option.isSome_iff_exists.1 hs
  have hp := List.find?_some hk
  unfold findBestAvailableKey
  rw [hk]
  simpa using hp

lemma acquireFresh_fst (s : PoolState) (tid : Nat) (now : Int) :
    (acquireFresh s tid now).1 = (findBestAvailableKey s now).1 := rfl

lemma getClient_eq_of_owned {s : PoolState} {tid : Nat} {now : Int} {k : String}
    (h : lookupAssign s.threadAssignments tid = some k)
    (h2 : lookupOwner s.keyOwners k = some tid) :
    getClient s tid now = (k, s) := by
  unfold getClient
  rw [h]
  simp [h2]

lemma getClient_eq_of_stale {s : PoolState} {tid : Nat} {now : Int} {k : String}
    (h : lookupAssign s.threadAssignments tid = some k)
    (h2 : lookupOwner s.keyOwners k ≠ some tid) :
    getClient s tid now =
      acquireFresh { s with threadAssignments := delAssign s.threadAssignments tid } tid now := by
  unfold getClient
  rw [h]
  simp [h2]

lemma getClient_eq_of_unassigned {s : PoolState} {tid : Nat} {now : Int}
    (h : lookupAssign s.threadAssignments tid = none) :
    getClient s tid now = acquireFresh s tid now := by
  unfold getClient
  rw [h]

lemma lookupAssign_mem {a : List (Nat × String)} {t : Nat} {k : String}
    (h : lookupAssign a t = some k) : ∃ q ∈ a, q.2 = k := by
  unfold lookupAssign at h
  cases hfq : a.find? (fun q => q.1 == t) with
  | none => rw [hfq] at h; simp at h
  | some q =>
    rw [hfq] at h
    simp only [Option.map_some'] at h
    exact ⟨q, List.mem_of_find?_eq_some hfq, Option.some.inj h⟩

lemma getClient_fst_mem (s : PoolState) (tid : Nat) (now : Int) (h : s.apiKeys ≠ [])
    (hwf : ∀ q ∈ s.threadAssignments, q.2 ∈ s.apiKeys) :
    (getClient s tid now).1 ∈ s.apiKeys := by
  cases ha : lookupAssign s.threadAssignments tid with
  | none =>
    rw [getClient_eq_of_unassigned ha, acquireFresh_fst]
    exact findBestAvailableKey_mem s now h
  | some assignedKey =>
    by_cases ho : lookupOwner s.keyOwners assignedKey = some tid
    · rw [getClient_eq_of_owned ha ho]
      obtain ⟨q, hq, hqe⟩ := lookupAssign_mem ha
      exact hqe ▸ hwf q hq
    · rw [getClient_eq_of_stale ha ho, acquireFresh_fst]
      exact findBestAvailableKey_mem _ now h

/-! Part 9: claims about the pool (C3 and C9). -/

/-- C3 counterexample: with every key owned by another worker,
`get_client` hands worker 2 the key `"k1"` even though worker 1
currently owns it — `_find_best_available_key` falls through to the
idle-longest/round-robin strategies, which ignore ownership, and
`get_client` then reassigns the key.  This refutes the claim's "under
any pool occupancy (including when every key is owned)" part. -/
theorem c3_counterexample :
    lookupOwner poolAllOwned.keyOwners "k1" = some 1 ∧ (1 : Nat) ≠ 2 ∧
      (getClient poolAllOwned 2 1000).1 = "k1" := by
  exact ⟨by decide, by decide, by decide⟩

/-- C3 (amended): `acquire` is mutually exclusive per key whenever some
key is unowned at call time: if any key of the pool is currently
unowned, a key owned by a different worker is never returned (the
unassigned-key strategy fires first); only when every key is owned does
`get_client` reassign a key away from its owner. -/
theorem c3_amended_acquire_mutual_exclusion (s : PoolState) (V W : Nat) (K freeK : String)
    (now : Int) (hfree : freeK ∈ s.apiKeys)
    (hfreeUnowned : lookupOwner s.keyOwners freeK = none)
    (hK : lookupOwner s.keyOwners K = some W) (hVW : W ≠ V) :
    (getClient s V now).1 ≠ K := by
  have hex : ∃ u ∈ s.apiKeys, lookupOwner s.keyOwners u = none := ⟨freeK, hfree, hfreeUnowned⟩
  cases ha : lookupAssign s.threadAssignments V with
  | none =>
    rw [getClient_eq_of_unassigned ha, acquireFresh_fst]
    intro hEq
    have hn := findBestAvailableKey_unowned s now hex
    rw [hEq, hK] at hn
    exact Option.noConfusion hn
  | some assignedKey =>
    by_cases ho : lookupOwner s.keyOwners assignedKey = some V
    · rw [getClient_eq_of_owned ha ho]
      intro hEq
      simp only at hEq
      rw [hEq, hK] at ho
      exact hVW (Option.some.inj ho)
    · rw [getClient_eq_of_stale ha ho, acquireFresh_fst]
      intro hEq
      have hn := findBestAvailableKey_unowned
        { s with threadAssignments := delAssign s.threadAssignments V } now hex
      rw [hEq, hK] at hn
      exact Option.noConfusion hn

/-- Witness for the amended C3 at a concrete pool: key `"k1"` is owned
by worker 1, key `"k2"` is free, and worker 2's acquire does not return
`"k1"`. -/
theorem c3_amended_acquire_mutual_exclusion_witness :
    (getClient ⟨["k1", "k2"], [(1, "k1")], [("k1", some 1), ("k2", none)],
        [("k1", 0), ("k2", 0)], 0⟩ 2 1000).1 ≠ "k1" :=
  c3_amended_acquire_mutual_exclusion _ 2 1 "k1" "k2" 1000 (by decide) (by decide)
    (by decide) (by decide)

/-- C9: `release_client` is idempotent (releasing the same key/worker
pair twice equals releasing it once), a release by a caller that does
not own the key leaves the pool state completely unchanged, and after
any release a subsequent acquire on a non-empty well-formed pool still
returns a key of the pool (the model is a total function, so the call
terminates by construction). -/
theorem c9_release_idempotent_ownership_checked (s : PoolState) (key : String) (tid : Nat) :
    releaseClient (releaseClient s key tid) key tid = releaseClient s key tid ∧
    (¬ (lookupAssign s.threadAssignments tid = some key ∧
        lookupOwner s.keyOwners key = some tid) → releaseClient s key tid = s) ∧
    (∀ tid2 now, s.apiKeys ≠ [] → (∀ q ∈ s.threadAssignments, q.2 ∈ s.apiKeys) →
      (getClient (releaseClient s key tid) tid2 now).1 ∈ s.apiKeys) := by
  have hneg : ∀ hc : ¬ (lookupAssign s.threadAssignments tid = some key ∧
      lookupOwner s.keyOwners key = some tid), releaseClient s key tid = s := by
    intro hc
    unfold releaseClient
    rw [if_neg hc]
  refine ⟨?_, hneg, ?_⟩
  · by_cases hc : lookupAssign s.threadAssignments tid = some key ∧
        lookupOwner s.keyOwners key = some tid
    · have h1 : releaseClient s key tid =
          { s with threadAssignments := delAssign s.threadAssignments tid,
                   keyOwners := setOwner s.keyOwners key none } := by
        unfold releaseClient
        rw [if_pos hc]
      rw [h1]
      unfold releaseClient
      rw [if_neg]
      intro hcontra
      have h2 : lookupAssign (delAssign s.threadAssignments tid) tid = some key := hcontra.1
      rw [lookupAssign_delAssign] at h2
      exact Option.noConfusion h2
    · rw [hneg hc, hneg hc]
  · intro tid2 now h hwf
    have hkeys : (releaseClient s key tid).apiKeys = s.apiKeys := by
      unfold releaseClient
      split <;> rfl
    have hwf2 : ∀ q ∈ (releaseClient s key tid).threadAssignments,
        q.2 ∈ (releaseClient s key tid).apiKeys := by
      intro q hq
      rw [hkeys]
      unfold releaseClient at hq
      split at hq
      · exact hwf q ((List.filter_sublist _).subset hq)
      · exact hwf q hq
    have hmem := getClient_fst_mem (releaseClient s key tid) tid2 now
      (by rw [hkeys]; exact h) hwf2
    rwa [hkeys] at hmem

/-- Witness for C9 at a concrete pool with no assignments: releasing an
unowned key changes nothing, doing it twice is the same as once, and an
acquire afterwards returns a pool key. -/
theorem c9_release_idempotent_ownership_checked_witness :
    releaseClient (releaseClient ⟨["a"], [], [("a", none)], [("a", 0)], 0⟩ "a" 1) "a" 1 =
        releaseClient ⟨["a"], [], [("a", none)], [("a", 0)], 0⟩ "a" 1 ∧
    releaseClient ⟨["a"], [], [("a", none)], [("a", 0)], 0⟩ "a" 1 =
        ⟨["a"], [], [("a", none)], [("a", 0)], 0⟩ ∧
    (getClient (releaseClient ⟨["a"], [], [("a", none)], [("a", 0)], 0⟩ "a" 1) 2 1000).1 ∈
        (⟨["a"], [], [("a", none)], [("a", 0)], 0⟩ : PoolState).apiKeys := by
  obtain ⟨h1, h2, h3⟩ :=
    c9_release_idempotent_ownership_checked ⟨["a"], [], [("a", none)], [("a", 0)], 0⟩ "a" 1
  exact ⟨h1, h2 (by decide), h3 2 1000 (by decide) (by intro q hq; simp at hq)⟩

/-! Part 10: helper lemmas for the parser and Phase 1. -/

lemma createTableFromContent_some {titleLine content : PyStr} {i p : Nat} {t : ExtractedTable}
    (h : createTableFromContent titleLine content i p = some t) :
    t.table_id = i ∧ t.merge_start_page = none := by
  simp only [createTableFromContent] at h
  split at h
  · exact Option.noConfusion h
  · cases Option.some.inj h
    exact ⟨rfl, rfl⟩

lemma flushTable_ok (pageNum : Nat) (st : ParseState) (h : parseAccOk st) :
    parseAccOk (flushTable pageNum st) := by
  obtain ⟨hall, hchain⟩ := h
  unfold flushTable
  split
  · exact ⟨hall, hchain⟩
  · cases hc : createTableFromContent st.title (pyStrip st.content) st.nextId pageNum with
    | none => exact ⟨hall, hchain⟩
    | some t =>
      obtain ⟨hid, hfresh⟩ := createTableFromContent_some hc
      constructor
      · intro t' ht'
        rcases List.mem_append.1 ht' with h1 | h1
        · exact ⟨(hall t' h1).1, Nat.lt_succ_of_lt (hall t' h1).2⟩
        · rcases List.mem_singleton.1 h1 with rfl
          exact ⟨hfresh, hid ▸ Nat.lt_succ_self _⟩
      · rw [List.map_append]
        refine List.Chain'.append hchain (List.chain'_singleton _) ?_
        intro x hx y hy
        rcases List.mem_singleton.1 (by simpa using hy) with rfl
        obtain ⟨t', ht', rfl⟩ := List.mem_map.1 (List.mem_of_mem_getLast? hx)
        simpa [hid] using (hall t' ht').2

lemma parseLines_ok (pageNum : Nat) :
    ∀ (lines : List PyStr) (st : ParseState),
      parseAccOk st → parseAccOk (parseLines pageNum lines st) := by
  intro lines
  induction lines with
  | nil => intro st h; exact h
  | cons line rest ih =>
    intro st h
    have heq : parseLines pageNum (line :: rest) st =
        if "\x7bTable".data.isPrefixOf (pyStrip line) && containsChar line '\x7d' then
          parseLines pageNum rest
            { flushTable pageNum st with title := pyStrip line, content := [] }
        else parseLines pageNum rest { st with content := st.content ++ line ++ ['\n'] } := rfl
    rw [heq]
    split
    · exact ih _ (flushTable_ok pageNum st h)
    · exact ih _ h

lemma parsePageResponse_fresh (s : PyStr) (p : Nat) :
    pageFreshB (parsePageResponse s p) := by
  unfold parsePageResponse
  by_cases hc : pyUpper (pyStrip s) = "EMPTY".data
  · rw [if_pos hc]
    exact ⟨by intro t ht; simp at ht, by simp⟩
  · rw [if_neg hc]
    have h0 : parseAccOk ⟨[], [], 1, []⟩ := ⟨by intro t ht; simp at ht, by simp⟩
    have h1 := flushTable_ok p _ (parseLines_ok p (splitOnChar '\n' s) _ h0)
    exact ⟨fun t ht => (h1.1 t ht).1, h1.2⟩

lemma parsePageResponse_page (s : PyStr) (p : Nat) :
    (parsePageResponse s p).page_number = p := by
  unfold parsePageResponse
  by_cases hc : pyUpper (pyStrip s) = "EMPTY".data
  · rw [if_pos hc]
  · rw [if_neg hc]

lemma extractFromSinglePage_page (a1 a2 : AttemptOutcome) (p : Nat) :
    (extractFromSinglePage a1 a2 p).page_number = p := by
  unfold extractFromSinglePage extractWithCalls
  cases attemptText a1 with
  | some s => exact parsePageResponse_page s p
  | none =>
    cases attemptText a2 with
    | some s => exact parsePageResponse_page s p
    | none => rfl

lemma extractFromSinglePage_fresh (a1 a2 : AttemptOutcome) (p : Nat) :
    pageFreshB (extractFromSinglePage a1 a2 p) := by
  unfold extractFromSinglePage extractWithCalls
  cases attemptText a1 with
  | some s => exact parsePageResponse_fresh s p
  | none =>
    cases attemptText a2 with
    | some s => exact parsePageResponse_fresh s p
    | none => exact ⟨by intro t ht; simp at ht, by simp⟩

lemma pagesAttempted_chain (n : Nat) (ex : Nat → Bool) :
    List.Chain' (· < ·) (pagesAttempted n ex) := by
  unfold pagesAttempted
  apply List.Pairwise.chain'
  apply List.Pairwise.filter
  exact List.Pairwise.map _ (fun a b h => Nat.succ_lt_succ h) (List.pairwise_lt_range n)

lemma phase1_map_page (n : Nat) (ex : Nat → Bool)
    (env : Nat → AttemptOutcome × AttemptOutcome) :
    (phase1ParallelExtraction n ex env).map PageResponse.page_number = pagesAttempted n ex := by
  unfold phase1ParallelExtraction
  rw [List.map_map]
  have hfun : (PageResponse.page_number ∘ fun p => extractFromSinglePage (env p).1 (env p).2 p) =
      id := by
    funext p
    simp [Function.comp, extractFromSinglePage_page]
  rw [hfun, List.map_id]

/-! Part 11: claims about Phase 1 (C4 and C8). -/

/-- C4: the list returned by `_phase1_parallel_extraction` is ordered
strictly ascending by page number (the tasks are created in ascending
page order and `asyncio.gather` returns results in task order, whatever
the completion order), every attempted page contributes exactly one
entry, and a page whose extraction failed on both attempts (or found no
tables) is retained as a zero-table `PageResponse` rather than
dropped — `_extract_from_single_page` never raises and never returns
`None`. -/
theorem c4_phase1_ordered_and_total (n : Nat) (ex : Nat → Bool)
    (env : Nat → AttemptOutcome × AttemptOutcome) :
    (phase1ParallelExtraction n ex env).map PageResponse.page_number = pagesAttempted n ex ∧
    List.Chain' (· < ·) ((phase1ParallelExtraction n ex env).map PageResponse.page_number) ∧
    (∀ P ∈ phase1ParallelExtraction n ex env,
      attemptText (env P.page_number).1 = none → attemptText (env P.page_number).2 = none →
      P.tables = []) := by
  refine ⟨phase1_map_page n ex env, ?_, ?_⟩
  · rw [phase1_map_page n ex env]
    exact pagesAttempted_chain n ex
  · intro P hP h1 h2
    obtain ⟨p, hp, rfl⟩ := List.mem_map.1 hP
    rw [extractFromSinglePage_page] at h1 h2
    unfold extractFromSinglePage extractWithCalls
    rw [h1, h2]

/-- Witness for C4: two pages, both of whose extraction attempts raise;
the returned list still lists pages 1 and 2 in order and both entries
have zero tables. -/
theorem c4_phase1_ordered_and_total_witness :
    (phase1ParallelExtraction 2 (fun _ => true)
        (fun _ => (AttemptOutcome.raises, AttemptOutcome.raises))).map
      PageResponse.page_number = pagesAttempted 2 (fun _ => true) ∧
    (∀ P ∈ phase1ParallelExtraction 2 (fun _ => true)
        (fun _ => (AttemptOutcome.raises, AttemptOutcome.raises)), P.tables = []) := by
  obtain ⟨h1, _, h3⟩ := c4_phase1_ordered_and_total 2 (fun _ => true)
    (fun _ => (AttemptOutcome.raises, AttemptOutcome.raises))
  exact ⟨h1, fun P hP => h3 P hP rfl rfl⟩

/-- C8: if the first model call for a page fails, the call is retried
exactly once (exactly two calls are issued in total); if both attempts
fail the extractor returns a `PageResponse` with zero tables — as a
total function it returns rather than raises — and such a page still
appears in the Phase 1 result list, so the failure never aborts
document-wide Phase 1. -/
theorem c8_single_page_retry_and_degrade (a1 a2 : AttemptOutcome) (p : Nat) :
    (a1 = AttemptOutcome.raises → (extractWithCalls a1 a2 p).2 = 2) ∧
    (a1 = AttemptOutcome.raises → a2 = AttemptOutcome.raises →
      extractWithCalls a1 a2 p = (⟨p, "EMPTY".data, []⟩, 2)) ∧
    (∀ n ex env, p ∈ pagesAttempted n ex →
      env p = (AttemptOutcome.raises, AttemptOutcome.raises) →
      (⟨p, "EMPTY".data, []⟩ : PageResponse) ∈ phase1ParallelExtraction n ex env) := by
  refine ⟨?_, ?_, ?_⟩
  · rintro rfl
    cases a2 with
    | raises => rfl
    | noText => rfl
    | text s =>
      by_cases hs : s.isEmpty <;> simp [extractWithCalls, attemptText, hs]
  · rintro rfl rfl
    rfl
  · intro n ex env hp henv
    unfold phase1ParallelExtraction
    refine List.mem_map.2 ⟨p, hp, ?_⟩
    rw [henv]
    rfl

/-- Witness for C8 at page 4 of a four-page document whose two attempts
both raise. -/
theorem c8_single_page_retry_and_degrade_witness :
    (extractWithCalls AttemptOutcome.raises AttemptOutcome.raises 4).2 = 2 ∧
    extractWithCalls AttemptOutcome.raises AttemptOutcome.raises 4 = (⟨4, "EMPTY".data, []⟩, 2) ∧
    (⟨4, "EMPTY".data, []⟩ : PageResponse) ∈ phase1ParallelExtraction 4 (fun _ => true)
      (fun _ => (AttemptOutcome.raises, AttemptOutcome.raises)) := by
  obtain ⟨h1, h2, h3⟩ := c8_single_page_retry_and_degrade AttemptOutcome.raises
    AttemptOutcome.raises 4
  exact ⟨h1 rfl, h2 rfl rfl, h3 4 (fun _ => true) _ (by decide) rfl⟩

/-! Part 12: claims about the merge decision (C2, C5, C10). -/

/-- C2 counterexample: the reply `"DO NOT MERGE"` is not the literal
`MERGE` token, yet `_bulletproof_merge_decision` does not resolve it to
SEPARATE — line 826 tests `"MERGE" in decision`, a substring check, so
the pair is merged. -/
theorem c2_counterexample :
    ("DO NOT MERGE".data ≠ "MERGE".data) ∧
    bulletproofMergeDecision (OracleOutcome.reply "DO NOT MERGE".data) sampleA sampleB 1 ≠
      MergeVerdict.separate := by
  exact ⟨by decide, by decide⟩

/-- C2 (amended): a raised error or timeout, a response with no text,
and any reply whose stripped upper-casing does not contain the
substring `MERGE` all resolve to SEPARATE; but a reply is recognised by
substring containment, so text such as `"DO NOT MERGE"` resolves to
MERGE rather than SEPARATE. -/
theorem c2_amended_conservative_default (outcome : OracleOutcome) (t1 t2 : ExtractedTable)
    (p : Nat)
    (h : outcome = OracleOutcome.err ∨ outcome = OracleOutcome.noText ∨
      ∃ s, outcome = OracleOutcome.reply s ∧ mergeTokenHeard s = false) :
    bulletproofMergeDecision outcome t1 t2 p = MergeVerdict.separate := by
  rcases h with rfl | rfl | ⟨s, rfl, hs⟩
  · rfl
  · rfl
  · simp [bulletproofMergeDecision, bulletproofMergeDecisionF, hs]

/-- Witness for the amended C2: the reply `"SEPARATE"` contains no
`MERGE` substring and resolves to SEPARATE. -/
theorem c2_amended_conservative_default_witness :
    bulletproofMergeDecision (OracleOutcome.reply "SEPARATE".data) sampleA sampleB 1 =
      MergeVerdict.separate :=
  c2_amended_conservative_default _ sampleA sampleB 1
    (Or.inr (Or.inr ⟨"SEPARATE".data, rfl, by decide⟩))

lemma extractDataRows_cons (l : PyStr) (ls : List PyStr) (fh fs : Bool) :
    extractDataRows (l :: ls) fh fs =
      if (pyStrip l).isEmpty || !containsChar (pyStrip l) '|' then extractDataRows ls fh fs
      else if !fh then extractDataRows ls true fs
      else if !fs && (containsSub "---".data (pyStrip l) || containsSub "--".data (pyStrip l)) then
        extractDataRows ls fh true
      else pyStrip l :: extractDataRows ls fh fs := rfl

lemma extractDataRows_kept (ds : List PyStr)
    (hd : ∀ d ∈ ds, (pyStrip d).isEmpty = false ∧ containsChar (pyStrip d) '|' = true) :
    extractDataRows ds true true = ds.map pyStrip := by
  induction ds with
  | nil => rfl
  | cons d ds ih =>
    obtain ⟨h1, h2⟩ := hd d (List.mem_cons_self _ _)
    rw [extractDataRows_cons, h1, h2]
    simp [ih (fun x hx => hd x (List.mem_cons_of_mem _ hx))]

lemma extractDataRows_data (hdr sep : PyStr) (data : List PyStr)
    (hhdr : (pyStrip hdr).isEmpty = false ∧ containsChar (pyStrip hdr) '|' = true)
    (hsep : (pyStrip sep).isEmpty = false ∧ containsChar (pyStrip sep) '|' = true ∧
      containsSub "--".data (pyStrip sep) = true)
    (hdata : ∀ d ∈ data, (pyStrip d).isEmpty = false ∧ containsChar (pyStrip d) '|' = true) :
    extractDataRows (hdr :: sep :: data) false false = data.map pyStrip := by
  have hstep1 : extractDataRows (hdr :: sep :: data) false false =
      extractDataRows (sep :: data) true false := by
    rw [extractDataRows_cons, hhdr.1, hhdr.2]
    simp
  have hstep2 : extractDataRows (sep :: data) true false = extractDataRows data true true := by
    rw [extractDataRows_cons, hsep.1, hsep.2.1, hsep.2.2]
    simp
  rw [hstep1, hstep2]
  exact extractDataRows_kept data hdata

/-- C5: on a well-formed table B — its stripped content splits into a
non-blank header pipe line, a separator pipe line containing `--`, and
non-blank data pipe lines — the structural merge keeps table A's
(stripped) content lines in full and appends exactly B's data rows with
the header and separator stripped; the row count is the sum of both row
counts; title, headers and column count are A's; and the merge-origin
page is A's if A has one, else the page of A, so chains of merges
report the true first page. -/
theorem c5_structural_merge_shape (A B : ExtractedTable) (p : Nat)
    (hdr sep : PyStr) (data : List PyStr)
    (hsplit : splitOnChar '\n' (pyStrip B.markdown_content) = hdr :: sep :: data)
    (hhdr : (pyStrip hdr).isEmpty = false ∧ containsChar (pyStrip hdr) '|' = true)
    (hsep : (pyStrip sep).isEmpty = false ∧ containsChar (pyStrip sep) '|' = true ∧
      containsSub "--".data (pyStrip sep) = true)
    (hdata : ∀ d ∈ data, (pyStrip d).isEmpty = false ∧ containsChar (pyStrip d) '|' = true) :
    perfectMergeCore A B p =
      { table_id := A.table_id,
        title := A.title,
        markdown_content :=
          joinChar '\n' (splitOnChar '\n' (pyStrip A.markdown_content) ++ data.map pyStrip),
        column_headers := A.column_headers,
        row_count := A.row_count + B.row_count,
        column_count := A.column_count,
        merge_start_page := some (A.merge_start_page.getD p) } := by
  simp only [perfectMergeCore, hsplit]
  rw [extractDataRows_data hdr sep data hhdr hsep hdata]

/-- Witness for C5: merging the two sample tables at page 3 appends
B's single data row to A's content and sums the row counts. -/
theorem c5_structural_merge_shape_witness :
    perfectMergeCore sampleA sampleB 3 =
      ⟨1, "a".data, "| x |\n|---|\n| 1 |\n| 9 |".data, ["x".data], 2, 1, some 3⟩ := by
  have h := c5_structural_merge_shape sampleA sampleB 3 "| h |".data "|---|".data
    ["| 9 |".data] (by decide) (by decide) (by decide) (by decide)
  exact h.trans (by decide)

/-- C10: when the oracle replies MERGE but the structural merge body
raises, `_bulletproof_merge_decision` still reports the merge as
successful with table A returned unchanged (the `except` branch of
`_perfect_merge_tables`); Phase 2 then replaces the next page's
first-table slot with A alone, so the only row ever inserted for the
two pages is built from A and table B's rows are silently dropped. -/
theorem c10_merge_exception_drops_b (A B : ExtractedTable) (n : Nat) (r1 r2 : PyStr) :
    bulletproofMergeDecisionF (OracleOutcome.reply "MERGE".data) true A B n =
      MergeVerdict.merge A ∧
    (processPages
        (fun t1 t2 p => bulletproofMergeDecisionF (OracleOutcome.reply "MERGE".data) true t1 t2 p)
        [⟨n, r1, [A]⟩, ⟨n + 1, r2, [B]⟩]).inserted = [insertRow A (n + 1) (n + 1)] := by
  have hdec : ∀ t1 t2 : ExtractedTable, ∀ p : Nat,
      bulletproofMergeDecisionF (OracleOutcome.reply "MERGE".data) true t1 t2 p =
        MergeVerdict.merge t1 := by
    intro t1 t2 p
    simp [bulletproofMergeDecisionF, perfectMergeTables,
      show mergeTokenHeard "MERGE".data = true from by decide]
  refine ⟨hdec A B n, ?_⟩
  simp [processPages, processPageFuel, rowsOf, hdec]

/-! Part 13: claim C1 — the oracle is consulted only on consecutive
last/first pairs. -/

lemma adjacencyAt_lift (P : PageResponse) (rest : List PageResponse)
    (c : ExtractedTable × ExtractedTable × Nat) (h : AdjacencyAt rest c) :
    AdjacencyAt (P :: rest) c := by
  obtain ⟨i, Q, h1, h2, h3, h4⟩ := h
  exact ⟨i + 1, Q, by simpa using h1, by simpa using h2, h3, h4⟩

lemma adjacencyAt_head_swap (q q' : PageResponse) (rest' : List PageResponse)
    (c : ExtractedTable × ExtractedTable × Nat) (hpage : q.page_number = q'.page_number)
    (h : AdjacencyAt (q' :: rest') c) : AdjacencyAt (q :: rest') c := by
  obtain ⟨i, Q, h1, h2, h3, h4⟩ := h
  cases i with
  | zero =>
    refine ⟨0, Q, ?_, by simpa using h2, h3, h4⟩
    simpa [hpage] using h1
  | succ j =>
    refine ⟨j + 1, Q, ?_, ?_, h3, h4⟩
    · simpa using h1
    · simpa using h2

/-- C1: in the Phase 2 walk, every oracle call is made at a position
where the current entry's page number is some `N` and the immediately
following entry of the list carries page number exactly `N + 1` and has
at least one table — by construction of the embedding the call's
arguments are the current entry's last table and that next entry's
first table (lines 732-748).  And whenever the next entry is not
literally page `N + 1`, or has no tables, the step makes no oracle call
and flushes all of page `N`'s tables — its last table included — as
separate rows.  So tables from non-consecutive pages never merge. -/
theorem c1_oracle_only_on_consecutive_pairs
    (dec : ExtractedTable → ExtractedTable → Nat → MergeVerdict) :
    (∀ (l : List PageResponse), ∀ c ∈ (processPages dec l).calls, AdjacencyAt l c) ∧
    (∀ (fuel acc : Nat) (p q : PageResponse) (rest' : List PageResponse),
      p.tables ≠ [] → (q.page_number ≠ p.page_number + 1 ∨ q.tables = []) →
      (processPageFuel dec (fuel + 1) acc (p :: q :: rest')).calls =
        (processPageFuel dec fuel (acc + p.tables.length) (q :: rest')).calls ∧
      (processPageFuel dec (fuel + 1) acc (p :: q :: rest')).inserted =
        rowsOf p.page_number p.tables ++
          (processPageFuel dec fuel (acc + p.tables.length) (q :: rest')).inserted) := by
  have hA : ∀ (fuel acc : Nat) (l : List PageResponse),
      ∀ c ∈ (processPageFuel dec fuel acc l).calls, AdjacencyAt l c := by
    intro fuel
    induction fuel with
    | zero =>
      intro acc l c hc
      simp [processPageFuel] at hc
    | succ fuel ih =>
      intro acc l c hc
      cases l with
      | nil => simp [processPageFuel] at hc
      | cons p rest =>
        cases hpt : p.tables with
        | nil =>
          rw [show processPageFuel dec (fuel + 1) acc (p :: rest) =
              processPageFuel dec fuel acc rest from by
            simp [processPageFuel, hpt]] at hc
          exact adjacencyAt_lift p rest c (ih acc rest c hc)
        | cons t0 ts =>
          cases rest with
          | nil =>
            rw [show processPageFuel dec (fuel + 1) acc [p] =
                ⟨rowsOf p.page_number (t0 :: ts), [],
                 [acc + (rowsOf p.page_number (t0 :: ts)).length],
                 (rowsOf p.page_number (t0 :: ts)).length⟩ from by
              simp [processPageFuel, hpt]] at hc
            simp at hc
          | cons q rest' =>
            by_cases hconsec : q.page_number = p.page_number + 1
            · cases hqt : q.tables with
              | nil =>
                rw [show (processPageFuel dec (fuel + 1) acc (p :: q :: rest')).calls =
                    (processPageFuel dec fuel
                      (acc + (rowsOf p.page_number (t0 :: ts)).length) (q :: rest')).calls from by
                  simp [processPageFuel, hpt, hconsec, hqt]] at hc
                exact adjacencyAt_lift p _ c (ih _ _ c hc)
              | cons u us =>
                have hlast := (t0 :: ts).getLast (List.cons_ne_nil t0 ts)
                cases hdec : dec ((t0 :: ts).getLast (List.cons_ne_nil t0 ts)) u p.page_number with
                | merge m =>
                  rw [show (processPageFuel dec (fuel + 1) acc (p :: q :: rest')).calls =
                      ((t0 :: ts).getLast (List.cons_ne_nil t0 ts), u, p.page_number) ::
                        (processPageFuel dec fuel
                          (acc + (rowsOf p.page_number ((t0 :: ts).dropLast)).length)
                          ({ q with tables := m :: us } :: rest')).calls from by
                    simp [processPageFuel, hpt, hconsec, hqt, hdec]] at hc
                  rcases List.mem_cons.1 hc with rfl | hc2
                  · exact ⟨0, q, by simp, by simp, by simpa using hconsec, by simp [hqt]⟩
                  · refine adjacencyAt_lift p _ c ?_
                    exact adjacencyAt_head_swap q { q with tables := m :: us } rest' c rfl
                      (ih _ _ c hc2)
                | separate =>
                  rw [show (processPageFuel dec (fuel + 1) acc (p :: q :: rest')).calls =
                      ((t0 :: ts).getLast (List.cons_ne_nil t0 ts), u, p.page_number) ::
                        (processPageFuel dec fuel
                          (acc + (rowsOf p.page_number (t0 :: ts)).length)
                          (q :: rest')).calls from by
                    simp [processPageFuel, hpt, hconsec, hqt, hdec]] at hc
                  rcases List.mem_cons.1 hc with rfl | hc2
                  · exact ⟨0, q, by simp, by simp, by simpa using hconsec, by simp [hqt]⟩
                  · exact adjacencyAt_lift p _ c (ih _ _ c hc2)
            · rw [show (processPageFuel dec (fuel + 1) acc (p :: q :: rest')).calls =
                  (processPageFuel dec fuel
                    (acc + (rowsOf p.page_number (t0 :: ts)).length) (q :: rest')).calls from by
                simp [processPageFuel, hpt, hconsec]] at hc
              exact adjacencyAt_lift p _ c (ih _ _ c hc)
  constructor
  · intro l c hc
    exact hA l.length 0 l c hc
  · intro fuel acc p q rest' hptables hgap
    obtain ⟨t0, ts, hp⟩ : ∃ t0 ts, p.tables = t0 :: ts := by
      cases hpt : p.tables with
      | nil => exact absurd hpt hptables
      | cons a b => exact ⟨a, b, rfl⟩
    rcases hgap with hne | hqe
    · constructor <;> simp [processPageFuel, hp, hne, rowsOf]
    · by_cases hc : q.page_number = p.page_number + 1
      · constructor <;> simp [processPageFuel, hp, hc, hqe, rowsOf]
      · constructor <;> simp [processPageFuel, hp, hc, rowsOf]

/-- Witness for C1: with pages `[1, 4]` the lone transition makes no
oracle call and page 1's table is flushed; with pages `[1, 2]` the one
oracle call made is adjacent. -/
theorem c1_oracle_only_on_consecutive_pairs_witness :
    AdjacencyAt [⟨1, [], [sampleA]⟩, ⟨2, [], [sampleB]⟩] (sampleA, sampleB, 1) ∧
    (processPageFuel (decOf (fun _ _ _ => OracleOutcome.err)) 2 0
        [⟨1, [], [sampleA]⟩, ⟨4, [], [sampleB]⟩]).calls =
      (processPageFuel (decOf (fun _ _ _ => OracleOutcome.err)) 1 1
        [⟨4, [], [sampleB]⟩]).calls ∧
    (processPageFuel (decOf (fun _ _ _ => OracleOutcome.err)) 2 0
        [⟨1, [], [sampleA]⟩, ⟨4, [], [sampleB]⟩]).inserted =
      rowsOf 1 [sampleA] ++ (processPageFuel (decOf (fun _ _ _ => OracleOutcome.err)) 1 1
        [⟨4, [], [sampleB]⟩]).inserted := by
  obtain ⟨hA, hB⟩ :=
    c1_oracle_only_on_consecutive_pairs (decOf (fun _ _ _ => OracleOutcome.err))
  have h := hB 1 0 ⟨1, [], [sampleA]⟩ ⟨4, [], [sampleB]⟩ [] (by decide) (Or.inl (by decide))
  exact ⟨hA [⟨1, [], [sampleA]⟩, ⟨2, [], [sampleB]⟩] (sampleA, sampleB, 1) (by decide),
    h.1, h.2⟩

/-! Part 14: claim C7 — progress persistence and monotonicity. -/

lemma countP_cons_nonempty (p : PageResponse) (rest : List PageResponse) (t0 : ExtractedTable)
    (ts : List ExtractedTable) (hpt : p.tables = t0 :: ts) :
    List.countP (fun P => !P.tables.isEmpty) (p :: rest) =
      List.countP (fun P => !P.tables.isEmpty) rest + 1 := by
  rw [List.countP_cons]
  simp [hpt]

lemma countP_cons_empty (p : PageResponse) (rest : List PageResponse) (hpt : p.tables = []) :
    List.countP (fun P => !P.tables.isEmpty) (p :: rest) =
      List.countP (fun P => !P.tables.isEmpty) rest := by
  rw [List.countP_cons]
  simp [hpt]

lemma progress_cons_step (acc : Nat) (batch : List InsertedRow) (out : Phase2Out)
    (g1 : List.Chain' (· ≤ ·) out.persists)
    (g2 : ∀ x ∈ out.persists, acc + batch.length ≤ x)
    (g3 : out.count = out.inserted.length)
    (g4 : out.persists.getLast?.getD (acc + batch.length) = acc + batch.length + out.count) :
    List.Chain' (· ≤ ·) ((acc + batch.length) :: out.persists) ∧
    (∀ x ∈ (acc + batch.length) :: out.persists, acc ≤ x) ∧
    batch.length + out.count = (batch ++ out.inserted).length ∧
    ((acc + batch.length) :: out.persists).getLast?.getD acc =
      acc + (batch.length + out.count) := by
  refine ⟨?_, ?_, ?_, ?_⟩
  · exact List.chain'_cons'.2 ⟨fun y hy => g2 y (List.mem_of_mem_head? hy), g1⟩
  · intro x hx
    rcases List.mem_cons.1 hx with rfl | hx2
    · exact Nat.le_add_right acc batch.length
    · exact le_trans (Nat.le_add_right acc batch.length) (g2 x hx2)
  · simp only [List.length_append]
    omega
  · cases hps : out.persists with
    | nil =>
      rw [hps] at g4
      simp only [List.getLast?_nil, Option.getD_none] at g4
      simp only [hps, List.getLast?_singleton, Option.getD_some]
      omega
    | cons v vs =>
      rw [hps] at g4
      rw [List.getLast?_cons_cons]
      cases hlast : (v :: vs).getLast? with
      | none => exact absurd hlast (by simp)
      | some w =>
        rw [hlast] at g4
        simp only [Option.getD_some] at g4 ⊢
        omega

lemma phase2_progress_aux (dec : ExtractedTable → ExtractedTable → Nat → MergeVerdict) :
    ∀ (fuel : Nat) (l : List PageResponse) (acc : Nat), l.length ≤ fuel →
      List.Chain' (· ≤ ·) ((processPageFuel dec fuel acc l).persists) ∧
      (∀ x ∈ (processPageFuel dec fuel acc l).persists, acc ≤ x) ∧
      (processPageFuel dec fuel acc l).count =
        (processPageFuel dec fuel acc l).inserted.length ∧
      (processPageFuel dec fuel acc l).persists.getLast?.getD acc =
        acc + (processPageFuel dec fuel acc l).count ∧
      (processPageFuel dec fuel acc l).persists.length =
        l.countP (fun P => !P.tables.isEmpty) := by
  intro fuel
  induction fuel with
  | zero =>
    intro l acc hlen
    have hl : l = [] := List.length_eq_zero.1 (Nat.le_zero.1 hlen)
    subst hl
    simp [processPageFuel]
  | succ fuel ih =>
    intro l acc hlen
    cases l with
    | nil => simp [processPageFuel]
    | cons p rest =>
      have hrest : rest.length ≤ fuel := by
        simp only [List.length_cons] at hlen
        omega
      cases hpt : p.tables with
      | nil =>
        rw [show processPageFuel dec (fuel + 1) acc (p :: rest) =
            processPageFuel dec fuel acc rest from by simp [processPageFuel, hpt]]
        have h := ih rest acc hrest
        refine ⟨h.1, h.2.1, h.2.2.1, h.2.2.2.1, ?_⟩
        rw [countP_cons_empty p rest hpt, h.2.2.2.2]
      | cons t0 ts =>
        cases rest with
        | nil =>
          rw [show processPageFuel dec (fuel + 1) acc [p] =
              ⟨rowsOf p.page_number (t0 :: ts), [],
               [acc + (rowsOf p.page_number (t0 :: ts)).length],
               (rowsOf p.page_number (t0 :: ts)).length⟩ from by
            simp [processPageFuel, hpt]]
          refine ⟨by simp, by simp, by simp [rowsOf], by simp, ?_⟩
          simp [countP_cons_nonempty p [] t0 ts hpt]
        | cons q rest' =>
          have hq : (q :: rest').length ≤ fuel := by simpa using hrest
          by_cases hconsec : q.page_number = p.page_number + 1
          · cases hqt : q.tables with
            | nil =>
              rw [show processPageFuel dec (fuel + 1) acc (p :: q :: rest') =
                  ⟨rowsOf p.page_number (t0 :: ts) ++
                    (processPageFuel dec fuel
                      (acc + (rowsOf p.page_number (t0 :: ts)).length) (q :: rest')).inserted,
                   (processPageFuel dec fuel
                      (acc + (rowsOf p.page_number (t0 :: ts)).length) (q :: rest')).calls,
                   (acc + (rowsOf p.page_number (t0 :: ts)).length) ::
                    (processPageFuel dec fuel
                      (acc + (rowsOf p.page_number (t0 :: ts)).length) (q :: rest')).persists,
                   (rowsOf p.page_number (t0 :: ts)).length +
                    (processPageFuel dec fuel
                      (acc + (rowsOf p.page_number (t0 :: ts)).length) (q :: rest')).count⟩
                  from by simp [processPageFuel, hpt, hconsec, hqt]]
              obtain ⟨g1, g2, g3, g4, g5⟩ := ih (q :: rest')
                (acc + (rowsOf p.page_number (t0 :: ts)).length) hq
              obtain ⟨k1, k2, k3, k4⟩ :=
                progress_cons_step acc (rowsOf p.page_number (t0 :: ts)) _ g1 g2 g3 g4
              refine ⟨k1, k2, k3, k4, ?_⟩
              rw [List.length_cons, g5, countP_cons_nonempty p (q :: rest') t0 ts hpt]
            | cons u us =>
              cases hdec : dec ((t0 :: ts).getLast (List.cons_ne_nil t0 ts)) u p.page_number with
              | merge m =>
                rw [show processPageFuel dec (fuel + 1) acc (p :: q :: rest') =
                    ⟨rowsOf p.page_number ((t0 :: ts).dropLast) ++
                      (processPageFuel dec fuel
                        (acc + (rowsOf p.page_number ((t0 :: ts).dropLast)).length)
                        ({ q with tables := m :: us } :: rest')).inserted,
                     ((t0 :: ts).getLast (List.cons_ne_nil t0 ts), u, p.page_number) ::
                      (processPageFuel dec fuel
                        (acc + (rowsOf p.page_number ((t0 :: ts).dropLast)).length)
                        ({ q with tables := m :: us } :: rest')).calls,
                     (acc + (rowsOf p.page_number ((t0 :: ts).dropLast)).length) ::
                      (processPageFuel dec fuel
                        (acc + (rowsOf p.page_number ((t0 :: ts).dropLast)).length)
                        ({ q with tables := m :: us } :: rest')).persists,
                     (rowsOf p.page_number ((t0 :: ts).dropLast)).length +
                      (processPageFuel dec fuel
                        (acc + (rowsOf p.page_number ((t0 :: ts).dropLast)).length)
                        ({ q with tables := m :: us } :: rest')).count⟩
                    from by simp [processPageFuel, hpt, hconsec, hqt, hdec]]
                obtain ⟨g1, g2, g3, g4, g5⟩ := ih ({ q with tables := m :: us } :: rest')
                  (acc + (rowsOf p.page_number ((t0 :: ts).dropLast)).length)
                  (by simpa using hrest)
                obtain ⟨k1, k2, k3, k4⟩ :=
                  progress_cons_step acc (rowsOf p.page_number ((t0 :: ts).dropLast)) _ g1 g2 g3 g4
                refine ⟨k1, k2, k3, k4, ?_⟩
                have hq2 : List.countP (fun P => !P.tables.isEmpty)
                    ({ q with tables := m :: us } :: rest') =
                    List.countP (fun P => !P.tables.isEmpty) (q :: rest') := by
                  rw [List.countP_cons, List.countP_cons]
                  simp [hqt]
                rw [List.length_cons, g5, hq2, countP_cons_nonempty p (q :: rest') t0 ts hpt]
              | separate =>
                rw [show processPageFuel dec (fuel + 1) acc (p :: q :: rest') =
                    ⟨rowsOf p.page_number (t0 :: ts) ++
                      (processPageFuel dec fuel
                        (acc + (rowsOf p.page_number (t0 :: ts)).length) (q :: rest')).inserted,
                     ((t0 :: ts).getLast (List.cons_ne_nil t0 ts), u, p.page_number) ::
                      (processPageFuel dec fuel
                        (acc + (rowsOf p.page_number (t0 :: ts)).length) (q :: rest')).calls,
                     (acc + (rowsOf p.page_number (t0 :: ts)).length) ::
                      (processPageFuel dec fuel
                        (acc + (rowsOf p.page_number (t0 :: ts)).length) (q :: rest')).persists,
                     (rowsOf p.page_number (t0 :: ts)).length +
                      (processPageFuel dec fuel
                        (acc + (rowsOf p.page_number (t0 :: ts)).length) (q :: rest')).count⟩
                    from by simp [processPageFuel, hpt, hconsec, hqt, hdec]]
                obtain ⟨g1, g2, g3, g4, g5⟩ := ih (q :: rest')
                  (acc + (rowsOf p.page_number (t0 :: ts)).length) hq
                obtain ⟨k1, k2, k3, k4⟩ :=
                  progress_cons_step acc (rowsOf p.page_number (t0 :: ts)) _ g1 g2 g3 g4
                refine ⟨k1, k2, k3, k4, ?_⟩
                rw [List.length_cons, g5, countP_cons_nonempty p (q :: rest') t0 ts hpt]
          · rw [show processPageFuel dec (fuel + 1) acc (p :: q :: rest') =
                ⟨rowsOf p.page_number (t0 :: ts) ++
                  (processPageFuel dec fuel
                    (acc + (rowsOf p.page_number (t0 :: ts)).length) (q :: rest')).inserted,
                 (processPageFuel dec fuel
                    (acc + (rowsOf p.page_number (t0 :: ts)).length) (q :: rest')).calls,
                 (acc + (rowsOf p.page_number (t0 :: ts)).length) ::
                  (processPageFuel dec fuel
                    (acc + (rowsOf p.page_number (t0 :: ts)).length) (q :: rest')).persists,
                 (rowsOf p.page_number (t0 :: ts)).length +
                  (processPageFuel dec fuel
                    (acc + (rowsOf p.page_number (t0 :: ts)).length) (q :: rest')).count⟩
                from by simp [processPageFuel, hpt, hconsec]]
            obtain ⟨g1, g2, g3, g4, g5⟩ := ih (q :: rest')
              (acc + (rowsOf p.page_number (t0 :: ts)).length) hq
            obtain ⟨k1, k2, k3, k4⟩ :=
              progress_cons_step acc (rowsOf p.page_number (t0 :: ts)) _ g1 g2 g3 g4
            refine ⟨k1, k2, k3, k4, ?_⟩
            rw [List.length_cons, g5, countP_cons_nonempty p (q :: rest') t0 ts hpt]

/-- C7 counterexample: the claim says the counter is "updated and
persisted after each page is processed", but a page with zero tables is
skipped by the `continue` at line 720 before the progress save at lines
766-768: a run over one table-less page performs no persist at all. -/
theorem c7_counterexample :
    (processPages (decOf (fun _ _ _ => OracleOutcome.err))
        [⟨1, "EMPTY".data, []⟩]).persists.length ≠
      ([⟨1, "EMPTY".data, []⟩] : List PageResponse).length := by
  decide

/-- C7 (amended): `tables_processed` is updated and persisted after
each page that holds at least one candidate table (pages with no tables
are skipped before the progress save); the successive persisted values
never decrease; the run's returned total — the value stored into
`tables_processed` and `total_tables_found` when the status is set to
COMPLETED (lines 117-119) — equals the number of rows inserted, and the
last persisted value equals that final count. -/
theorem c7_amended_progress_monotone
    (dec : ExtractedTable → ExtractedTable → Nat → MergeVerdict) (l : List PageResponse) :
    List.Chain' (· ≤ ·) ((processPages dec l).persists) ∧
    (processPages dec l).count = (processPages dec l).inserted.length ∧
    (processPages dec l).persists.getLast?.getD 0 = (processPages dec l).count ∧
    (processPages dec l).persists.length = l.countP (fun P => !P.tables.isEmpty) := by
  obtain ⟨h1, _, h3, h4, h5⟩ := phase2_progress_aux dec l.length l 0 (le_refl _)
  exact ⟨h1, h3, by simpa using h4, h5⟩

/-! Part 15: claim C6 — persisted rows are ordered and page-ranged. -/

lemma keyLe_of_lt {a b : Nat × Nat} (h : a.1 < b.1) : keyLe a b := Or.inl h

lemma keyLe_of_eq_le {a b : Nat × Nat} (h1 : a.1 = b.1) (h2 : a.2 ≤ b.2) : keyLe a b :=
  Or.inr ⟨h1, h2⟩

lemma rowsOf_map_rowKey (n : Nat) (ts' : List ExtractedTable) :
    (rowsOf n ts').map rowKey = ts'.map (tkey n) := by
  unfold rowsOf
  rw [List.map_map]
  apply List.map_congr_left
  intro t _
  rfl

lemma tkey_merge (L u : ExtractedTable) (n m' : Nat) :
    tkey m' (perfectMergeCore L u n) = tkey n L := by
  simp [tkey, perfectMergeCore]

lemma chain'_getLast_link {α : Type} {R : α → α → Prop} :
    ∀ (l : List α) (a : α), List.Chain' R (a :: l) → (h : l ≠ []) →
      R ((a :: l.dropLast).getLast (List.cons_ne_nil _ _)) (l.getLast h) := by
  intro l
  induction l with
  | nil => intro a _ h; exact absurd rfl h
  | cons x xs ih =>
    intro a hchain h
    cases xs with
    | nil => simpa using (List.chain'_cons.1 hchain).1
    | cons y ys =>
      have h2 := ih x (List.chain'_cons.1 hchain).2 (List.cons_ne_nil _ _)
      rw [List.dropLast_cons₂, List.getLast_cons (List.cons_ne_nil _ _),
        List.getLast_cons (List.cons_ne_nil _ _)]
      exact h2

lemma headInv_of_fresh (prev : Nat × Nat) (q : PageResponse) (rest2 : List PageResponse)
    (hfresh : pageFreshB q) (hlt : prev.1 < q.page_number) :
    headInv prev (q :: rest2) := by
  have hkeys : q.tables.map (tkey q.page_number) =
      (q.tables.map ExtractedTable.table_id).map (fun i => (q.page_number, i)) := by
    rw [List.map_map]
    apply List.map_congr_left
    intro t ht
    simp [tkey, hfresh.1 t ht]
  refine ⟨hlt, ?_, ?_⟩
  · rw [hkeys]
    refine List.chain'_cons'.2 ⟨?_, ?_⟩
    · intro y hy
      rw [List.head?_map] at hy
      obtain ⟨i, _, rfl⟩ := Option.map_eq_some'.1 hy
      exact keyLe_of_lt hlt
    · exact List.chain'_map_of_chain' _ (fun a b h => keyLe_of_eq_le rfl (le_of_lt h)) hfresh.2
  · intro t ht
    rw [hfresh.1 t ht]
    simp

lemma getLast_key_lt (prev : Nat × Nat) (n m : Nat) (ts' : List ExtractedTable)
    (hprev : prev.1 < n) (hbound : ∀ t ∈ ts', t.merge_start_page.getD n ≤ n) (hnm : n < m) :
    ((prev :: ts'.map (tkey n)).getLast (List.cons_ne_nil _ _)).1 < m := by
  have hmem := List.getLast_mem (l := prev :: ts'.map (tkey n)) (List.cons_ne_nil _ _)
  rcases List.mem_cons.1 hmem with heq | hmem2
  · rw [heq]
    exact lt_trans hprev hnm
  · obtain ⟨t, ht, heq⟩ := List.mem_map.1 hmem2
    rw [← heq]
    exact lt_of_le_of_lt (hbound t ht) hnm

lemma mem_pagesAttempted_pos (n : Nat) (ex : Nat → Bool) :
    ∀ x ∈ pagesAttempted n ex, 0 < x := by
  intro x hx
  unfold pagesAttempted at hx
  obtain ⟨i, _, rfl⟩ := List.mem_map.1 (List.mem_of_mem_filter hx)
  exact Nat.succ_pos i

lemma decOf_good (oracleF : ExtractedTable → ExtractedTable → Nat → OracleOutcome) :
    decGood (decOf oracleF) := by
  intro t1 t2 p m h
  unfold decOf bulletproofMergeDecision bulletproofMergeDecisionF at h
  rcases ho : oracleF t1 t2 p with _ | _ | s <;> rw [ho] at h
  · exact MergeVerdict.noConfusion h
  · exact MergeVerdict.noConfusion h
  · have h2 : (if mergeTokenHeard s = true then
        MergeVerdict.merge (perfectMergeTables false t1 t2 p)
        else MergeVerdict.separate) = MergeVerdict.merge m := h
    by_cases hs : mergeTokenHeard s = true
    · rw [if_pos hs] at h2
      cases MergeVerdict.merge.inj h2
      rfl
    · rw [if_neg hs] at h2
      exact MergeVerdict.noConfusion h2

lemma fresh_keys_chain (page : Nat) (us : List ExtractedTable)
    (hfresh : ∀ t ∈ us, t.merge_start_page = none)
    (hids : List.Chain' (· < ·) (us.map ExtractedTable.table_id)) :
    List.Chain' keyLe (us.map (tkey page)) := by
  have hkeys : us.map (tkey page) =
      (us.map ExtractedTable.table_id).map (fun i => (page, i)) := by
    rw [List.map_map]
    apply List.map_congr_left
    intro t ht
    simp [tkey, hfresh t ht]
  rw [hkeys]
  exact List.chain'_map_of_chain' _ (fun a b h => keyLe_of_eq_le rfl (le_of_lt h)) hids

lemma headInv_merged (newPrev : Nat × Nat) (q : PageResponse) (rest' : List PageResponse)
    (L u m : ExtractedTable) (us : List ExtractedTable) (npage : Nat)
    (hm : m = perfectMergeCore L u npage)
    (hqpage : q.page_number = npage + 1)
    (hqt : q.tables = u :: us)
    (hqFresh : pageFreshB q)
    (hLbound : L.merge_start_page.getD npage ≤ npage)
    (hlink : keyLe newPrev (tkey npage L)) :
    headInv newPrev ({ q with tables := m :: us } :: rest') := by
  have husFresh : ∀ t ∈ us, t.merge_start_page = none := by
    intro t ht
    exact hqFresh.1 t (by rw [hqt]; exact List.mem_cons_of_mem u ht)
  have husIds : List.Chain' (· < ·) (us.map ExtractedTable.table_id) := by
    have := hqFresh.2
    rw [hqt] at this
    exact (List.chain'_cons'.1 (by simpa using this)).2
  have hLkey1 : (tkey npage L).1 ≤ npage := hLbound
  have hnp1 : newPrev.1 ≤ npage := by
    rcases hlink with h | h
    · exact le_of_lt (lt_of_lt_of_le h hLkey1)
    · exact h.1 ▸ hLkey1
  have hpageq : ({ q with tables := m :: us } : PageResponse).page_number = npage + 1 := hqpage
  refine ⟨?_, ?_, ?_⟩
  · rw [hpageq]
    exact Nat.lt_succ_of_le hnp1
  · show List.Chain' keyLe (newPrev :: (m :: us).map (tkey q.page_number))
    have hmk : tkey q.page_number m = tkey npage L := by
      rw [hm]
      exact tkey_merge L u npage q.page_number
    simp only [List.map_cons, hmk]
    refine List.chain'_cons'.2 ⟨?_, ?_⟩
    · intro y hy
      simp only [List.head?_cons, Option.mem_some_iff] at hy
      rw [← hy]
      exact hlink
    refine List.chain'_cons'.2 ⟨?_, fresh_keys_chain q.page_number us husFresh husIds⟩
    intro y hy
    rw [List.head?_map] at hy
    obtain ⟨t, hth, rfl⟩ := Option.map_eq_some'.1 hy
    have htus : t ∈ us := List.mem_of_mem_head? hth
    apply keyLe_of_lt
    have ht2 : (tkey q.page_number t).1 = q.page_number := by
      simp [tkey, husFresh t htus]
    rw [ht2]
    exact lt_of_le_of_lt hLkey1 (by rw [hqpage]; exact Nat.lt_succ_self npage)
  · intro t ht
    rcases List.mem_cons.1 ht with rfl | htus
    · rw [hm]
      show (some (L.merge_start_page.getD npage)).getD _ ≤ q.page_number
      simp only [Option.getD_some]
      rw [hqpage]
      exact le_trans hLbound (Nat.le_succ npage)
    · rw [husFresh t htus]
      simp

lemma phase2_sorted_aux (dec : ExtractedTable → ExtractedTable → Nat → MergeVerdict)
    (hdec : decGood dec) :
    ∀ (fuel : Nat) (l : List PageResponse) (acc : Nat) (prev : Nat × Nat),
      l.length ≤ fuel →
      List.Chain' (· < ·) (l.map PageResponse.page_number) →
      (∀ P ∈ l.drop 1, pageFreshB P) →
      headInv prev l →
      List.Chain' keyLe (prev :: (processPageFuel dec fuel acc l).inserted.map rowKey) ∧
      ∀ r ∈ (processPageFuel dec fuel acc l).inserted, r.startPage ≤ r.endPage := by
  intro fuel
  induction fuel with
  | zero =>
    intro l acc prev hlen _ _ _
    have hl : l = [] := List.length_eq_zero.1 (Nat.le_zero.1 hlen)
    subst hl
    simp [processPageFuel]
  | succ fuel ih =>
    intro l acc prev hlen hpages hfresh hhead
    cases l with
    | nil => simp [processPageFuel]
    | cons p rest =>
      have hrest : rest.length ≤ fuel := by
        simp only [List.length_cons] at hlen
        omega
      obtain ⟨hprev1, hchain, hbound⟩ : prev.1 < p.page_number ∧
          List.Chain' keyLe (prev :: p.tables.map (tkey p.page_number)) ∧
          ∀ t ∈ p.tables, t.merge_start_page.getD p.page_number ≤ p.page_number := hhead
      cases hpt : p.tables with
      | nil =>
        rw [show processPageFuel dec (fuel + 1) acc (p :: rest) =
            processPageFuel dec fuel acc rest from by simp [processPageFuel, hpt]]
        refine ih rest acc prev hrest hpages.tail
          (fun P hP => hfresh P (List.drop_subset 1 rest hP)) ?_
        cases rest with
        | nil => trivial
        | cons q rest2 =>
          refine headInv_of_fresh prev q rest2 (hfresh q (by simp)) ?_
          have hpq : p.page_number < q.page_number := by
            simp only [List.map_cons] at hpages
            exact (List.chain'_cons.1 hpages).1
          exact lt_trans hprev1 hpq
      | cons t0 ts =>
        rw [hpt] at hchain hbound
        have hrowbound : ∀ r ∈ rowsOf p.page_number (t0 :: ts), r.startPage ≤ r.endPage := by
          intro r hr
          obtain ⟨t, ht, rfl⟩ := List.mem_map.1 hr
          simpa [insertRow] using hbound t ht
        cases rest with
        | nil =>
          rw [show processPageFuel dec (fuel + 1) acc [p] =
              ⟨rowsOf p.page_number (t0 :: ts), [],
               [acc + (rowsOf p.page_number (t0 :: ts)).length],
               (rowsOf p.page_number (t0 :: ts)).length⟩ from by
            simp [processPageFuel, hpt]]
          constructor
          · rw [rowsOf_map_rowKey]
            exact hchain
          · exact hrowbound
        | cons q rest' =>
          have hq : (q :: rest').length ≤ fuel := by simpa using hrest
          have hpq : p.page_number < q.page_number := by
            simp only [List.map_cons] at hpages
            exact (List.chain'_cons.1 hpages).1
          have hpagesTail : List.Chain' (· < ·) ((q :: rest').map PageResponse.page_number) :=
            hpages.tail
          have hfreshTail : ∀ P ∈ (q :: rest').drop 1, pageFreshB P := by
            intro P hP
            exact hfresh P (List.mem_cons_of_mem q (by simpa using hP))
          have hqFresh : pageFreshB q := hfresh q (by simp)
          have hassemble : ∀ (out : Phase2Out),
              (List.Chain' keyLe
                (((prev :: (t0 :: ts).map (tkey p.page_number)).getLast
                  (List.cons_ne_nil _ _)) :: out.inserted.map rowKey)) →
              (∀ r ∈ out.inserted, r.startPage ≤ r.endPage) →
              List.Chain' keyLe (prev ::
                (rowsOf p.page_number (t0 :: ts) ++ out.inserted).map rowKey) ∧
              ∀ r ∈ rowsOf p.page_number (t0 :: ts) ++ out.inserted,
                r.startPage ≤ r.endPage := by
            intro out r1 r2
            constructor
            · rw [List.map_append, rowsOf_map_rowKey, ← List.cons_append]
              refine List.Chain'.append hchain ((List.chain'_cons'.1 r1).2) ?_
              intro x hx y hy
              have hx2 : (prev :: (t0 :: ts).map (tkey p.page_number)).getLast
                  (List.cons_ne_nil _ _) = x := by
                rw [List.getLast?_eq_getLast _ (List.cons_ne_nil _ _)] at hx
                exact Option.mem_some_iff.1 hx
              rw [← hx2]
              exact (List.chain'_cons'.1 r1).1 y hy
            · intro r hr
              rcases List.mem_append.1 hr with h1 | h1
              · exact hrowbound r h1
              · exact r2 r h1
          have hnewprev : ((prev :: (t0 :: ts).map (tkey p.page_number)).getLast
              (List.cons_ne_nil _ _)).1 < q.page_number :=
            getLast_key_lt prev p.page_number q.page_number (t0 :: ts) hprev1 hbound hpq
          have hrecNoMerge := ih (q :: rest')
            (acc + (rowsOf p.page_number (t0 :: ts)).length)
            ((prev :: (t0 :: ts).map (tkey p.page_number)).getLast (List.cons_ne_nil _ _))
            hq hpagesTail hfreshTail
            (headInv_of_fresh _ q rest' hqFresh hnewprev)
          by_cases hconsec : q.page_number = p.page_number + 1
          · cases hqt : q.tables with
            | nil =>
              rw [show processPageFuel dec (fuel + 1) acc (p :: q :: rest') =
                  ⟨rowsOf p.page_number (t0 :: ts) ++
                    (processPageFuel dec fuel
                      (acc + (rowsOf p.page_number (t0 :: ts)).length) (q :: rest')).inserted,
                   (processPageFuel dec fuel
                      (acc + (rowsOf p.page_number (t0 :: ts)).length) (q :: rest')).calls,
                   (acc + (rowsOf p.page_number (t0 :: ts)).length) ::
                    (processPageFuel dec fuel
                      (acc + (rowsOf p.page_number (t0 :: ts)).length) (q :: rest')).persists,
                   (rowsOf p.page_number (t0 :: ts)).length +
                    (processPageFuel dec fuel
                      (acc + (rowsOf p.page_number (t0 :: ts)).length) (q :: rest')).count⟩
                  from by simp [processPageFuel, hpt, hconsec, hqt]]
              exact hassemble _ hrecNoMerge.1 hrecNoMerge.2
            | cons u us =>
              cases hdecs : dec ((t0 :: ts).getLast (List.cons_ne_nil t0 ts)) u p.page_number with
              | separate =>
                rw [show processPageFuel dec (fuel + 1) acc (p :: q :: rest') =
                    ⟨rowsOf p.page_number (t0 :: ts) ++
                      (processPageFuel dec fuel
                        (acc + (rowsOf p.page_number (t0 :: ts)).length) (q :: rest')).inserted,
                     ((t0 :: ts).getLast (List.cons_ne_nil t0 ts), u, p.page_number) ::
                      (processPageFuel dec fuel
                        (acc + (rowsOf p.page_number (t0 :: ts)).length) (q :: rest')).calls,
                     (acc + (rowsOf p.page_number (t0 :: ts)).length) ::
                      (processPageFuel dec fuel
                        (acc + (rowsOf p.page_number (t0 :: ts)).length) (q :: rest')).persists,
                     (rowsOf p.page_number (t0 :: ts)).length +
                      (processPageFuel dec fuel
                        (acc + (rowsOf p.page_number (t0 :: ts)).length) (q :: rest')).count⟩
                    from by simp [processPageFuel, hpt, hconsec, hqt, hdecs]]
                exact hassemble _ hrecNoMerge.1 hrecNoMerge.2
              | merge m =>
                have hm : m = perfectMergeCore ((t0 :: ts).getLast (List.cons_ne_nil t0 ts)) u
                    p.page_number := hdec _ _ _ _ hdecs
                have hKeysNe : (t0 :: ts).map (tkey p.page_number) ≠ [] := by simp
                have hpre : (prev :: ((t0 :: ts).map (tkey p.page_number)).dropLast) <+:
                    (prev :: (t0 :: ts).map (tkey p.page_number)) :=
                  (List.prefix_cons_inj prev).mpr
                    (List.dropLast_prefix ((t0 :: ts).map (tkey p.page_number)))
                have hchainDrop := hchain.prefix hpre
                have hlink : keyLe
                    ((prev :: ((t0 :: ts).map (tkey p.page_number)).dropLast).getLast
                      (List.cons_ne_nil _ _))
                    (tkey p.page_number ((t0 :: ts).getLast (List.cons_ne_nil t0 ts))) := by
                  have h1 := chain'_getLast_link ((t0 :: ts).map (tkey p.page_number)) prev
                    hchain hKeysNe
                  rwa [List.getLast_map (tkey p.page_number) (t0 :: ts) hKeysNe] at h1
                have hLbound : ((t0 :: ts).getLast
                    (List.cons_ne_nil t0 ts)).merge_start_page.getD p.page_number ≤
                    p.page_number :=
                  hbound _ (List.getLast_mem (List.cons_ne_nil t0 ts))
                have hdropmap : ((t0 :: ts).dropLast).map (tkey p.page_number) =
                    ((t0 :: ts).map (tkey p.page_number)).dropLast :=
                  List.map_dropLast (tkey p.page_number) (t0 :: ts)
                have hrecMerge := ih ({ q with tables := m :: us } :: rest')
                  (acc + (rowsOf p.page_number ((t0 :: ts).dropLast)).length)
                  ((prev :: ((t0 :: ts).map (tkey p.page_number)).dropLast).getLast
                    (List.cons_ne_nil _ _))
                  (by simpa using hrest) (by simpa using hpagesTail)
                  (by intro P hP; exact hfreshTail P (by simpa using hP))
                  (headInv_merged _ q rest' _ u m us p.page_number hm hconsec hqt hqFresh
                    hLbound hlink)
                rw [show processPageFuel dec (fuel + 1) acc (p :: q :: rest') =
                    ⟨rowsOf p.page_number ((t0 :: ts).dropLast) ++
                      (processPageFuel dec fuel
                        (acc + (rowsOf p.page_number ((t0 :: ts).dropLast)).length)
                        ({ q with tables := m :: us } :: rest')).inserted,
                     ((t0 :: ts).getLast (List.cons_ne_nil t0 ts), u, p.page_number) ::
                      (processPageFuel dec fuel
                        (acc + (rowsOf p.page_number ((t0 :: ts).dropLast)).length)
                        ({ q with tables := m :: us } :: rest')).calls,
                     (acc + (rowsOf p.page_number ((t0 :: ts).dropLast)).length) ::
                      (processPageFuel dec fuel
                        (acc + (rowsOf p.page_number ((t0 :: ts).dropLast)).length)
                        ({ q with tables := m :: us } :: rest')).persists,
                     (rowsOf p.page_number ((t0 :: ts).dropLast)).length +
                      (processPageFuel dec fuel
                        (acc + (rowsOf p.page_number ((t0 :: ts).dropLast)).length)
                        ({ q with tables := m :: us } :: rest')).count⟩
                    from by simp [processPageFuel, hpt, hconsec, hqt, hdecs]]
                constructor
                · rw [List.map_append, rowsOf_map_rowKey, hdropmap, ← List.cons_append]
                  refine List.Chain'.append hchainDrop
                    ((List.chain'_cons'.1 hrecMerge.1).2) ?_
                  intro x hx y hy
                  have hx2 : (prev :: ((t0 :: ts).map (tkey p.page_number)).dropLast).getLast
                      (List.cons_ne_nil _ _) = x := by
                    rw [List.getLast?_eq_getLast _ (List.cons_ne_nil _ _)] at hx
                    exact Option.mem_some_iff.1 hx
                  rw [← hx2]
                  exact (List.chain'_cons'.1 hrecMerge.1).1 y hy
                · intro r hr
                  rcases List.mem_append.1 hr with h1 | h1
                  · obtain ⟨t, ht, rfl⟩ := List.mem_map.1 h1
                    have ht2 : t ∈ t0 :: ts := (List.dropLast_prefix (t0 :: ts)).subset ht
                    simpa [insertRow] using hbound t ht2
                  · exact hrecMerge.2 r h1
          · rw [show processPageFuel dec (fuel + 1) acc (p :: q :: rest') =
                ⟨rowsOf p.page_number (t0 :: ts) ++
                  (processPageFuel dec fuel
                    (acc + (rowsOf p.page_number (t0 :: ts)).length) (q :: rest')).inserted,
                 (processPageFuel dec fuel
                    (acc + (rowsOf p.page_number (t0 :: ts)).length) (q :: rest')).calls,
                 (acc + (rowsOf p.page_number (t0 :: ts)).length) ::
                  (processPageFuel dec fuel
                    (acc + (rowsOf p.page_number (t0 :: ts)).length) (q :: rest')).persists,
                 (rowsOf p.page_number (t0 :: ts)).length +
                  (processPageFuel dec fuel
                    (acc + (rowsOf p.page_number (t0 :: ts)).length) (q :: rest')).count⟩
                from by simp [processPageFuel, hpt, hconsec]]
            exact hassemble _ hrecNoMerge.1 hrecNoMerge.2

/-- C6: for any pipeline run — Phase 1 extraction under any per-page
attempt outcomes followed by the Phase 2 walk under any oracle
behaviour — the rows written to storage are non-decreasing in their
`(start_page, table_number)` key in write order, and every row
satisfies `start_page ≤ end_page`.  The embedding writes rows only by
appending (`_insert_table_to_database` only ever calls `insert()` on a
new `Table` record; no row is ever updated), so a later merge produces
a new write, never a mutation of an existing row. -/
theorem c6_rows_ordered_and_page_ranged (n : Nat) (ex : Nat → Bool)
    (env : Nat → AttemptOutcome × AttemptOutcome)
    (oracleF : ExtractedTable → ExtractedTable → Nat → OracleOutcome) :
    List.Chain' keyLe
      ((processPages (decOf oracleF) (phase1ParallelExtraction n ex env)).inserted.map
        rowKey) ∧
    ∀ r ∈ (processPages (decOf oracleF) (phase1ParallelExtraction n ex env)).inserted,
      r.startPage ≤ r.endPage := by
  set l := phase1ParallelExtraction n ex env with hl
  have hpages : List.Chain' (· < ·) (l.map PageResponse.page_number) := by
    rw [hl, phase1_map_page]
    exact pagesAttempted_chain n ex
  have hfreshAll : ∀ P ∈ l, pageFreshB P := by
    intro P hP
    rw [hl] at hP
    obtain ⟨p, _, rfl⟩ := List.mem_map.1 hP
    exact extractFromSinglePage_fresh _ _ p
  have hpos : ∀ P ∈ l, 0 < P.page_number := by
    intro P hP
    have h1 : P.page_number ∈ l.map PageResponse.page_number := List.mem_map_of_mem _ hP
    rw [hl, phase1_map_page] at h1
    exact mem_pagesAttempted_pos n ex _ h1
  have hhead : headInv (0, 0) l := by
    cases hc : l with
    | nil => trivial
    | cons q rest =>
      refine headInv_of_fresh (0, 0) q rest (hfreshAll q (by rw [hc]; simp)) ?_
      exact hpos q (by rw [hc]; simp)
  obtain ⟨h1, h2⟩ := phase2_sorted_aux (decOf oracleF) (decOf_good oracleF) l.length l 0 (0, 0)
    (le_refl _) hpages (fun P hP => hfreshAll P (List.drop_subset 1 l hP)) hhead
  exact ⟨(List.chain'_cons'.1 h1).2, h2⟩

/-- Witness for C6: a one-page document whose extraction call returns a
single table block; the lone inserted row is key-ordered trivially and
spans page 1 to page 1. -/
theorem c6_rows_ordered_and_page_ranged_witness :
    List.Chain' keyLe
      ((processPages (decOf (fun _ _ _ => OracleOutcome.err))
        (phase1ParallelExtraction 1 (fun _ => true)
          (fun _ => (AttemptOutcome.text "\x7bTable 1: t\x7d\n| h |\n|---|\n| 1 |".data,
            AttemptOutcome.raises)))).inserted.map rowKey) ∧
    (⟨1, 1, 1, "t".data, "| h |\n|---|\n| 1 |".data, 1, 1⟩ : InsertedRow).startPage ≤
      (⟨1, 1, 1, "t".data, "| h |\n|---|\n| 1 |".data, 1, 1⟩ : InsertedRow).endPage := by
  obtain ⟨h1, h2⟩ := c6_rows_ordered_and_page_ranged 1 (fun _ => true)
    (fun _ => (AttemptOutcome.text "\x7bTable 1: t\x7d\n| h |\n|---|\n| 1 |".data,
      AttemptOutcome.raises)) (fun _ _ _ => OracleOutcome.err)
  exact ⟨h1, h2 _ (by decide)⟩

end DocAnalyzer
